import Mathlib

/-!
# Verification of the document layout reconstruction engine

This file gives a shallow embedding, in Lean 4, of the PDF-report layout
reconstruction engine found in `src/parsers/pdfParser.ts`, and proves (or
refutes) the frozen claims about it.

Modelling conventions:

* JavaScript numbers are modelled as exact rationals (`ℚ`).  Every claim in
  scope involves only small integer coordinates and integer-valued cell
  contents, for which double-precision arithmetic is exact, so no floating
  point rounding is observable in any statement below.
* `Array.prototype.sort` in JavaScript is a stable sort (ES2019); beyond
  stability its behaviour is implementation defined when the comparator is
  inconsistent.  We model it by a stable insertion sort (`sortByStable`).
  All positive theorems below either do not depend on the sorted order at
  all, or carry hypotheses under which the comparator is consistent, in
  which case every stable sort produces the same sequence.  The one
  counterexample that exercises an order-dependent run uses an input on
  which every stable sort (including the engine's) returns the input
  unchanged.
* The `File`/page-decoding boundary (`pdfjs-dist`) is explicitly out of
  scope per the specification; the model starts from the extracted list of
  positioned text fragments (`TextItem`), exactly where the pure part of
  `parsePdf` begins (its Step 2).
* JavaScript regular expression tests are embedded as direct executable
  scanners for the handful of concrete patterns the source uses; each
  scanner is documented with the regex it implements.
-/

/- Batteries marks the `Rat` arithmetic operations `@[irreducible]`, which
only affects elaborator unfolding; restoring semireducibility lets `decide`
pre-evaluate concrete rational arithmetic (the kernel ignores reducibility
attributes either way). -/
attribute [local semireducible] Rat.add Rat.sub Rat.mul Rat.inv Rat.ofScientific

/-! ## JavaScript primitives: whitespace, case, string search -/

/-- The JavaScript whitespace class (used by `String.prototype.trim` and by
`\s` in regular expressions): tab, LF, VT, FF, CR, space, NBSP, and the
Unicode space separators, line/paragraph separators and BOM. -/
def jsWhite (c : Char) : Bool :=
  c == ' ' || c == '\t' || c == '\n' || c == '\r' || c.val == 11 || c.val == 12 ||
  c.val == 160 || c.val == 0x1680 || (0x2000 ≤ c.val && c.val ≤ 0x200A) ||
  c.val == 0x2028 || c.val == 0x2029 || c.val == 0x202F || c.val == 0x205F ||
  c.val == 0x3000 || c.val == 0xFEFF

/-- Strip leading and trailing JavaScript whitespace from a character list. -/
def trimWsL (cs : List Char) : List Char :=
  ((cs.dropWhile jsWhite).reverse.dropWhile jsWhite).reverse

/-- `String.prototype.trim`. -/
def jsTrim (s : String) : String := ⟨trimWsL s.data⟩

/-- Lower-case a character list (models `toLowerCase` / the `i` regex flag on
the ASCII strings the engine matches). -/
def lowerL (cs : List Char) : List Char := cs.map Char.toLower

/-- Lower-case a string. -/
def lowerStr (s : String) : String := ⟨lowerL s.data⟩

/-- `p` is an initial segment of `cs` (character-exact). -/
def leadsL (p : List Char) (cs : List Char) : Bool :=
  match p, cs with
  | [], _ => true
  | _ :: _, [] => false
  | a :: ps, c :: rest => a == c && leadsL ps rest

/-- Case-insensitive "starts with" against a lower-case pattern: models an
anchored `/^pat/i` regex test. -/
def startsWithCI (pat : String) (s : String) : Bool :=
  leadsL pat.data (lowerL s.data)

/-- `pat` occurs (character-exact) somewhere in `cs`. -/
def containsL (pat : List Char) : List Char → Bool
  | [] => leadsL pat []
  | c :: rest => leadsL pat (c :: rest) || containsL pat rest

/-- Case-insensitive substring test against a lower-case pattern: models an
unanchored `/pat/i` regex test for a pattern of plain characters. -/
def containsCI (pat : String) (s : String) : Bool :=
  containsL pat.data (lowerL s.data)

/-! ## JavaScript numeric coercion (`Number(string)`) -/

/-- A non-`NaN` JavaScript number as produced by `Number(string)`: a finite
value (exact here, see the header note on floats) or a signed infinity. -/
inductive JSNum where
  | fin (q : ℚ)
  | inf (neg : Bool)
deriving DecidableEq, Repr

/-- Decimal digit value. -/
def digitVal (c : Char) : ℕ := c.toNat - 48

/-- Hexadecimal digit value. -/
def hexVal (c : Char) : ℕ :=
  if c.isDigit then c.toNat - 48 else (Char.toLower c).toNat - 87

/-- Hexadecimal digit test. -/
def isHexDigit (c : Char) : Bool :=
  c.isDigit || ('a' ≤ Char.toLower c && Char.toLower c ≤ 'f')

/-- Octal digit test. -/
def isOctDigit (c : Char) : Bool := '0' ≤ c && c ≤ '7'

/-- Binary digit test. -/
def isBinDigit (c : Char) : Bool := c == '0' || c == '1'

/-- Value of a digit list in the given base. -/
def natFromDigits (base : ℕ) (f : Char → ℕ) (cs : List Char) : ℕ :=
  cs.foldl (fun acc c => acc * base + f c) 0

/-- Parse the optional exponent part of a decimal literal and produce the
final value; `none` when trailing characters remain. -/
def parseExpPart (intPart fracPart rest : List Char) : Option ℚ :=
  let mant : ℚ :=
    (natFromDigits 10 digitVal intPart : ℚ) +
      (natFromDigits 10 digitVal fracPart : ℚ) / ((10 : ℚ) ^ fracPart.length)
  match rest with
  | [] => some mant
  | e :: rest2 =>
    if e == 'e' || e == 'E' then
      let esign : ℤ := match rest2 with
        | '-' :: _ => -1
        | _ => 1
      let rest3 := match rest2 with
        | '+' :: r => r
        | '-' :: r => r
        | r => r
      let eds := List.takeWhile Char.isDigit rest3
      let rest4 := List.dropWhile Char.isDigit rest3
      if eds.isEmpty || !rest4.isEmpty then none
      else some (mant * (10 : ℚ) ^ (esign * (natFromDigits 10 digitVal eds : ℕ)))
    else none

/-- Parse an unsigned decimal literal (`digits [. digits] [exp]` or
`. digits [exp]`), requiring the whole list to be consumed. -/
def parseDecimal (cs : List Char) : Option ℚ :=
  let intPart := List.takeWhile Char.isDigit cs
  let rest1 := List.dropWhile Char.isDigit cs
  match rest1 with
  | '.' :: rest2 =>
    let fracPart := List.takeWhile Char.isDigit rest2
    let rest3 := List.dropWhile Char.isDigit rest2
    if intPart.isEmpty && fracPart.isEmpty then none
    else parseExpPart intPart fracPart rest3
  | _ => if intPart.isEmpty then none else parseExpPart intPart [] rest1

/-- Parse a radix-prefixed (`0x`/`0o`/`0b`) digit string. -/
def jsParseRadix (base : ℕ) (ok : Char → Bool) (f : Char → ℕ) (ds : List Char) :
    Option JSNum :=
  if ds.isEmpty || !(ds.all ok) then none else some (.fin (natFromDigits base f ds))

/-- Parse an optionally signed decimal literal or `Infinity`. -/
def jsParseSigned (cs : List Char) : Option JSNum :=
  let neg : Bool := match cs with
    | '-' :: _ => true
    | _ => false
  let rest := match cs with
    | '+' :: r => r
    | '-' :: r => r
    | r => r
  if rest == "Infinity".data then some (.inf neg)
  else match parseDecimal rest with
    | some q => some (.fin (if neg then -q else q))
    | none => none

/-- Parse a non-empty numeric literal body. -/
def jsParseLit (cs : List Char) : Option JSNum :=
  match cs with
  | '0' :: c :: rest =>
    if c == 'x' || c == 'X' then jsParseRadix 16 isHexDigit hexVal rest
    else if c == 'o' || c == 'O' then jsParseRadix 8 isOctDigit digitVal rest
    else if c == 'b' || c == 'B' then jsParseRadix 2 isBinDigit digitVal rest
    else jsParseSigned cs
  | _ => jsParseSigned cs

/-- `Number(s)` for a string: `none` models `NaN`.  The empty (or
all-whitespace) string converts to `0`. -/
def jsStringToNumber (s : String) : Option JSNum :=
  let cs := trimWsL s.data
  if cs.isEmpty then some (.fin 0) else jsParseLit cs

/-! ## Data model -/

/-- A positioned text fragment (source: interface `TextItem`). -/
structure TextItem where
  text : String
  x : ℚ
  y : ℚ
  page : ℕ
deriving DecidableEq, Repr

/-- A detected header cell (source: interface `HeaderPosition`). -/
structure HeaderPosition where
  name : String
  x : ℚ
  page : ℕ
deriving DecidableEq, Repr

/-- Tolerance (in PDF points) for grouping text items into the same row
(source: `Y_TOLERANCE`). -/
def Y_TOLERANCE : ℚ := 3

/-! ## Stable sorting -/

/-- Stable insertion of a later-arriving element `a` into an already
processed list: `a` goes after every element `b` with `le b a`, so equal
elements keep their input order. -/
def insertStable (le : α → α → Bool) (a : α) : List α → List α
  | [] => [a]
  | b :: l => if le b a then b :: insertStable le a l else a :: b :: l

/-- Stable sort by insertion, processing the input left to right.  Models
`Array.prototype.sort` (see the header note). -/
def sortByStable (le : α → α → Bool) (l : List α) : List α :=
  l.foldl (fun acc x => insertStable le x acc) []

/-- The row-grouping comparator (source: the arrow function at
`groupIntoRows` line 81): descending y when the gap exceeds the tolerance,
otherwise ascending x. -/
def cmpFrag (a b : TextItem) : ℚ :=
  if |b.y - a.y| > Y_TOLERANCE then b.y - a.y else a.x - b.x

/-- `a` need not come strictly after `b`: comparator value `≤ 0`. -/
def leFrag (a b : TextItem) : Bool := decide (cmpFrag a b ≤ 0)

/-- The left-to-right comparator `(a, b) => a.x - b.x` as a `≤` test. -/
def leX (a b : TextItem) : Bool := decide (a.x ≤ b.x)

/-- Sort a row left-to-right (source: `currentRow.sort((a, b) => a.x - b.x)`). -/
def sortX (l : List TextItem) : List TextItem := sortByStable leX l

/-! ## Row Grouper (source: `groupIntoRows`) -/

/-- The linear scan of `groupIntoRows`: `cur` is the row being accumulated,
`curY` the y of the fragment that started it.  A fragment within
`Y_TOLERANCE` of `curY` joins the current row; otherwise the current row is
sorted left-to-right, emitted, and a new row starts. -/
def buildRows (cur : List TextItem) (curY : ℚ) : List TextItem → List (List TextItem)
  | [] => [sortX cur]
  | it :: rest =>
    if |it.y - curY| ≤ Y_TOLERANCE then buildRows (cur ++ [it]) curY rest
    else sortX cur :: buildRows [it] it.y rest

/-- The scan phase of `groupIntoRows`: seed the first row with the first
sorted fragment, then run the linear scan. -/
def groupScan (s : List TextItem) : List (List TextItem) :=
  match s with
  | [] => []
  | a :: rest => buildRows [a] a.y rest

/-- Group fragments into visual rows (source: `groupIntoRows`): sort by the
row comparator, then scan. -/
def groupIntoRows (items : List TextItem) : List (List TextItem) :=
  groupScan (sortByStable leFrag items)

/-! ## Numeric coercion (source: `parseNumericValue`) -/

/-- A parsed cell value: a number or a string. -/
inductive JSValue where
  | num (v : JSNum)
  | str (s : String)
deriving DecidableEq, Repr

/-- Remove every `£` and `,` character (source: `replace(/[£,]/g, '')`). -/
def stripPoundComma (s : String) : String :=
  ⟨s.data.filter (fun c => !(c == '£' || c == ','))⟩

/-- Remove one trailing percent sign (source: `replace(/%$/, '')`). -/
def dropPercentSuffix (s : String) : String :=
  match s.data.reverse with
  | '%' :: r => ⟨r.reverse⟩
  | _ => s

/-- The cleaning pipeline of `parseNumericValue`: trim, then strip `£`
signs and commas and re-trim (the source's `cleaned`), then strip one
trailing percent sign and re-trim (the source's `withoutPercent`). -/
def cleanedValue (raw : String) : String :=
  jsTrim (dropPercentSuffix (jsTrim (stripPoundComma (jsTrim raw))))

/-- Source: `parseNumericValue`.  Trim; strip `£` and commas; strip one
trailing `%`; convert with `Number`; keep the number when it is not `NaN`
and the cleaned string is non-empty, otherwise return the trimmed input. -/
def parseNumericValue (raw : String) : JSValue :=
  if jsTrim raw = "" then .str (jsTrim raw)
  else
    match jsStringToNumber (cleanedValue raw) with
    | some n => if cleanedValue raw = "" then .str (jsTrim raw) else .num n
    | none => .str (jsTrim raw)

/-! ## Column Assigner (source: `assignToColumn`) -/

/-- The best-match scan of `assignToColumn`: keep the running best, replace
it only on strictly smaller distance (ties keep the earlier candidate). -/
def pickBest (itemX : ℚ) (best : HeaderPosition) : List HeaderPosition → HeaderPosition
  | [] => best
  | c :: rest =>
    if |itemX - c.x| < |itemX - best.x| then pickBest itemX c rest
    else pickBest itemX best rest

/-- Source: `assignToColumn`.  `none` on an empty header list; otherwise
restrict to headers on the fragment's page when any exist, and return the
name of the closest candidate by `|x − headerX|`. -/
def assignToColumn (itemX : ℚ) (itemPage : ℕ) (hps : List HeaderPosition) :
    Option String :=
  match hps with
  | [] => none
  | h :: t =>
    match (h :: t).filter (fun hp => hp.page == itemPage) with
    | [] => some (pickBest itemX h t).name
    | c :: cs => some (pickBest itemX c cs).name

/-! ## Canonical Name Merger (source: `buildCanonicalNameMap`) -/

/-- Lookup in an insertion-ordered association list (models `Map.get`). -/
def mapGet (m : List (String × String)) (k : String) : Option String :=
  (m.find? (fun e => e.1 == k)).map (fun e => e.2)

/-- Insert-or-update in an insertion-ordered association list (models
`Map.set`: updating an existing key keeps its position). -/
def mapSet (m : List (String × String)) (k v : String) : List (String × String) :=
  if (m.find? (fun e => e.1 == k)).isSome then
    m.map (fun e => if e.1 == k then (k, v) else e)
  else m ++ [(k, v)]

/-- `s.startsWith(pat)` (character-exact, as in the source's `startsWith`). -/
def jsStartsWith (s pat : String) : Bool := leadsL pat.data s.data

/-- Collapse whitespace runs to single spaces (models `replace(/\s+/g, ' ')`);
`prevWs` records whether the previous character was part of a run. -/
def collapseGo (prevWs : Bool) : List Char → List Char
  | [] => []
  | c :: rest =>
    if jsWhite c then
      if prevWs then collapseGo true rest else ' ' :: collapseGo true rest
    else c :: collapseGo false rest

/-- Source: the `norm` helper inside `buildCanonicalNameMap`: lowercase,
collapse whitespace, trim. -/
def normName (s : String) : String := jsTrim ⟨collapseGo false (lowerL s.data)⟩

/-- Try to match `/O\s+IS/i` at the head of the list; on success return the
remainder after the match. -/
def matchOis (cs : List Char) : Option (List Char) :=
  match cs with
  | [] => none
  | c :: rest =>
    if Char.toLower c == 'o' then
      let ws := List.takeWhile jsWhite rest
      let r2 := List.dropWhile jsWhite rest
      if ws.isEmpty then none
      else
        match r2 with
        | i :: s :: r3 =>
          if Char.toLower i == 'i' && Char.toLower s == 's' then some r3 else none
        | _ => none
    else none

/-- Fuel-driven scan for the global replace `replace(/O\s+IS/gi, 'OIS')`;
each step consumes at least one character, so `fuel = length + 1` never
runs out. -/
def oisGo : ℕ → List Char → List Char
  | 0, cs => cs
  | _ + 1, [] => []
  | n + 1, c :: rest =>
    match matchOis (c :: rest) with
    | some rem => 'O' :: 'I' :: 'S' :: oisGo n rem
    | none => c :: oisGo n rest

/-- `val.replace(/O\s+IS/gi, 'OIS')`. -/
def oisReplace (s : String) : String := ⟨oisGo (s.data.length + 1) s.data⟩

/-- Source: the final loop of `buildCanonicalNameMap`: rewrite each map
value through the `O IS → OIS` fix (updating in place preserves entry
order, so iteration-with-set is a map over entries). -/
def applyOisFix (m : List (String × String)) : List (String × String) :=
  m.map (fun e => let f := oisReplace e.2; if f ≠ e.2 then (e.1, f) else e)

/-- `headers[i].name` with the out-of-range default never reached by the
in-range loops below. -/
def nameAt (headers : List HeaderPosition) (i : ℕ) : String :=
  ((headers[i]?).map (fun h => h.name)).getD ""

/-- The inner `j` loop body of `buildCanonicalNameMap`: skip used indices;
when the normalised names are in a starts-with relation, mark `j` used and
record the mapping, keeping the longer name as canonical.  (Lengths are
UTF-16 code-unit counts in the source; all header names in scope are
basic-plane, where code points and code units agree.) -/
def cnmInner (headers : List HeaderPosition)
    (st : String × List ℕ × List (String × String)) (j : ℕ) :
    String × List ℕ × List (String × String) :=
  let canonical := st.1
  let used := st.2.1
  let m := st.2.2
  if j ∈ used then st
  else
    let a := normName canonical
    let b := normName (nameAt headers j)
    if jsStartsWith a b || jsStartsWith b a then
      if (nameAt headers j).length > canonical.length then
        (nameAt headers j, j :: used, mapSet m canonical (nameAt headers j))
      else
        (canonical, j :: used, mapSet m (nameAt headers j) canonical)
    else st

/-- The outer `i` loop body of `buildCanonicalNameMap`. -/
def cnmOuter (headers : List HeaderPosition)
    (st : List ℕ × List (String × String)) (i : ℕ) :
    List ℕ × List (String × String) :=
  let used := st.1
  let m := st.2
  if i ∈ used then st
  else
    let n := headers.length
    let res := (List.range' (i + 1) (n - (i + 1))).foldl (cnmInner headers)
      (nameAt headers i, used, m)
    (res.2.1, res.2.2)

/-- Source: `buildCanonicalNameMap`.  Greedy pairwise unification of
starts-with-related normalised names, then the `O IS → OIS` value fix. -/
def buildCanonicalNameMap (headers : List HeaderPosition) : List (String × String) :=
  let res := (List.range headers.length).foldl (cnmOuter headers) ([], [])
  applyOisFix res.2

/-- The caller-side resolution `canonicalNames.get(rawColName) ?? rawColName`
(source: `parsePdf` line 362). -/
def resolveCanonical (m : List (String × String)) (raw : String) : String :=
  (mapGet m raw).getD raw

/-! ## Pattern scanners used by the pipeline -/

/-- Does `f` accept some suffix of the list?  (Models the regex engine's
scan over every start position.) -/
def anyPos (f : List Char → Bool) : List Char → Bool
  | [] => f []
  | c :: rest => f (c :: rest) || anyPos f rest

/-- Consume a literal at the head, returning the remainder. -/
def dropLit (pat : List Char) (cs : List Char) : Option (List Char) :=
  if leadsL pat cs then some (cs.drop pat.length) else none

/-- Match `last\s*week` at the head of a lowered list. -/
def lastWeekAt (cs : List Char) : Bool :=
  match dropLit "last".data cs with
  | some r1 => leadsL "week".data (List.dropWhile jsWhite r1)
  | none => false

/-- `/Last\s*Week/i.test(text)` (source: the section-anchor search). -/
def testLastWeek (s : String) : Bool := anyPos lastWeekAt (lowerL s.data)

/-- Match `staff\s*member` at the head of a lowered list. -/
def staffMemberAt (cs : List Char) : Bool :=
  match dropLit "staff".data cs with
  | some r1 => leadsL "member".data (List.dropWhile jsWhite r1)
  | none => false

/-- `/Staff\s*Member/i.test(text)` (source: the header-row search). -/
def testStaffMember (s : String) : Bool := anyPos staffMemberAt (lowerL s.data)

/-- Match `last\s+week\s+\d{4,6}` at the head of a lowered list, returning
the greedily captured digit run (at most 6 digits, at least 4). -/
def weekDigitsAt (cs : List Char) : Option (List Char) :=
  match dropLit "last".data cs with
  | none => none
  | some r1 =>
    if (List.takeWhile jsWhite r1).isEmpty then none
    else
      match dropLit "week".data (List.dropWhile jsWhite r1) with
      | none => none
      | some r3 =>
        if (List.takeWhile jsWhite r3).isEmpty then none
        else
          let ds := (List.takeWhile Char.isDigit (List.dropWhile jsWhite r3)).take 6
          if ds.length < 4 then none else some ds

/-- Leftmost match of the week pattern over all start positions. -/
def searchWeekDigits : List Char → Option (List Char)
  | [] => none
  | c :: rest =>
    match weekDigitsAt (c :: rest) with
    | some ds => some ds
    | none => searchWeekDigits rest

/-- Source: `parsePdf` Step 2: `fullText.match(/Last\s+Week\s+(\d{4,6})/i)`
followed by `parseInt(digits.slice(-2), 10)` — the last two digits of the
matched run. -/
def detectWeek (s : String) : Option ℕ :=
  (searchWeekDigits (lowerL s.data)).map
    (fun ds => natFromDigits 10 digitVal (ds.drop (ds.length - 2)))

/-- Match `last\s+week` at the head of a lowered list (the anchor phrase
with mandatory separating whitespace). -/
def anchorLWAt (cs : List Char) : Bool :=
  match dropLit "last".data cs with
  | some r1 =>
    !(List.takeWhile jsWhite r1).isEmpty &&
      leadsL "week".data (List.dropWhile jsWhite r1)
  | none => false

/-- The full text contains the anchor phrase `Last Week` (case-insensitive,
any whitespace run between the words). -/
def hasAnchorLW (s : String) : Bool := anyPos anchorLWAt (lowerL s.data)

/-- JavaScript `\w` (word character) for `\b` boundaries. -/
def isWordChar (c : Char) : Bool := c.isAlpha || c.isDigit || c == '_'

/-- Match `- ytd\b` at the head of a lowered list. -/
def ytdAt (cs : List Char) : Bool :=
  match dropLit "- ytd".data cs with
  | some r =>
    match r with
    | [] => true
    | c :: _ => !(isWordChar c)
  | none => false

/-- Source: `SECTION_TERMINATOR_PATTERNS`: the pattern `- YTD\b` with the
`i` flag (anywhere), or `/^OIS Employee Tracker/i` (anchored). -/
def isSectionEnd (t : String) : Bool :=
  anyPos ytdAt (lowerL t.data) || startsWithCI "ois employee tracker" t

/-! ## Section Isolator (source: `parsePdf` Step 3) -/

/-- The collection loop of `parsePdf` Step 3.  `hi` is the anchor fragment,
`acc` the collected section, `rt` the `reachedTotal` flag.  Faithful to the
source: in the `reachedTotal` branch the code tests whether the item shares
the Total row's y and page, but both outcomes append the item (the failing
test falls through to the same push), so the flag never changes the
collected list. -/
def sectionLoop (hi : TextItem) (acc : List TextItem) (rt : Bool) :
    List TextItem → List TextItem
  | [] => acc
  | item :: rest =>
    if item.page < hi.page then sectionLoop hi acc rt rest
    else if item.page = hi.page ∧ hi.y ≤ item.y then sectionLoop hi acc rt rest
    else if isSectionEnd item.text then acc
    else if startsWithCI "total" item.text then sectionLoop hi (acc ++ [item]) true rest
    else if rt then
      match (acc.filter (fun si => startsWithCI "total" si.text)).head? with
      | some t0 =>
        if |item.y - t0.y| ≤ Y_TOLERANCE ∧ item.page = t0.page then
          sectionLoop hi (acc ++ [item]) rt rest
        else sectionLoop hi (acc ++ [item]) rt rest
      | none => sectionLoop hi (acc ++ [item]) rt rest
    else sectionLoop hi (acc ++ [item]) rt rest

/-! ## Header Resolver and Row Assembler (source: `parsePdf` Steps 4–5) -/

/-- Space-joined text of a fragment list (source: `join(' ')`). -/
def joinTexts (row : List TextItem) : String :=
  String.intercalate " " (row.map TextItem.text)

/-- Strip currency, comma, percent and whitespace characters (source:
`item.text.replace(/[£,%\s]/g, '')` in the overflow-header check). -/
def stripNumericJunk (s : String) : String :=
  ⟨s.data.filter (fun c => !(c == '£' || c == ',' || c == '%' || jsWhite c))⟩

/-- A fragment counts as non-numeric for the overflow-header check when its
stripped text is non-empty and `Number` yields `NaN` on it (source:
`Number.isNaN(Number(cleaned)) && cleaned.length > 0`). -/
def fragNonNumeric (it : TextItem) : Bool :=
  let c := stripNumericJunk it.text
  (jsStringToNumber c).isNone && c.length > 0

/-- First fragment's page of a row (`row[0]?.page`). -/
def rowPage? (r : List TextItem) : Option ℕ := r.head?.map TextItem.page

/-- Source: `parsePdf` lines 296–312: the next row is an overflow header
continuation when it exists, starts on a page different from the header
row's, and contains at least one non-numeric fragment; in that case its
fragments are the overflow header items, otherwise there are none. -/
def overflowHeaderItems (rows : List (List TextItem)) (hIdx : ℕ) : List TextItem :=
  let headerPage := rowPage? ((rows[hIdx]?).getD [])
  match rows[hIdx + 1]? with
  | none => []
  | some nextRow =>
    match rowPage? nextRow with
    | none => []
    | some np =>
      if some np ≠ headerPage then
        if nextRow.any fragNonNumeric then nextRow else []
      else []

/-- Source: `parsePdf` line 333: data starts one row after the header, or
two when an overflow header row was consumed. -/
def dataStartIndex (rows : List (List TextItem)) (hIdx : ℕ) : ℕ :=
  if (overflowHeaderItems rows hIdx).isEmpty then hIdx + 1 else hIdx + 2

/-- Source: `parsePdf` lines 347–353: skip a row when its trimmed joined
text starts with `Total`, or any fragment's text starts with `Total`, or
the joined text contains the footer phrase (all case-insensitive). -/
def rowSkip (row : List TextItem) : Bool :=
  let rowText := joinTexts row
  startsWithCI "total" (jsTrim rowText) ||
    row.any (fun it => startsWithCI "total" it.text) ||
    containsCI "report will display" rowText

/-- Source: `parsePdf` lines 357–376: assign one fragment to its canonical
column; a repeated column concatenates distinct text with a space and keeps
the first occurrence of identical text. -/
def accumCell (hps : List HeaderPosition) (cmap : List (String × String))
    (pr : List (String × String)) (it : TextItem) : List (String × String) :=
  match assignToColumn it.x it.page hps with
  | none => pr
  | some raw =>
    let col := resolveCanonical cmap raw
    match mapGet pr col with
    | some existing =>
      if existing ≠ it.text then mapSet pr col (existing ++ " " ++ it.text) else pr
    | none => mapSet pr col it.text

/-- Source: `parsePdf` loop body for one data row: skip filtered rows,
assemble cells, drop empty/blank rows, then coerce every value
numerically.  `none` means the row contributes nothing to the output. -/
def processRow (hps : List HeaderPosition) (cmap : List (String × String))
    (row : List TextItem) : Option (List (String × JSValue)) :=
  if rowSkip row then none
  else
    let pr := row.foldl (accumCell hps cmap) []
    if pr.isEmpty then none
    else if pr.all (fun e => jsTrim e.2 = "") then none
    else some (pr.map (fun e => (e.1, parseNumericValue e.2)))

/-- Source: `parsePdf` Step 5 loop from `dataStartIndex` to the end. -/
def assembleRows (hps : List HeaderPosition) (cmap : List (String × String))
    (rows : List (List TextItem)) (start : ℕ) : List (List (String × JSValue)) :=
  (rows.drop start).filterMap (processRow hps cmap)

/-! ## The engine (source: `parsePdf`, pure part after page extraction) -/

/-- The engine's result (source: `PdfParseResult`). -/
structure PdfParseResult where
  rows : List (List (String × JSValue))
  detectedWeekNumber : Option ℕ
deriving DecidableEq, Repr

/-- The isolated section for a fragment stream: empty when no fragment
matches the anchor pattern, otherwise the Step-3 collection loop. -/
def sectionItemsOf (items : List TextItem) : List TextItem :=
  match items.find? (fun it => testLastWeek it.text) with
  | none => []
  | some hi => sectionLoop hi [] false items

/-- Source: `parsePdf`, Steps 2–5 (everything after page extraction, which
is the engine's out-of-scope asynchronous boundary).  Total: structural
absence of the anchor, the section, or the header row yields an empty row
list, never an exception. -/
def parsePdf (items : List TextItem) : PdfParseResult :=
  if items.isEmpty then ⟨[], none⟩
  else
    let dwn := detectWeek (joinTexts items)
    match items.find? (fun it => testLastWeek it.text) with
    | none => ⟨[], dwn⟩
    | some hi =>
      let sectionItems := sectionLoop hi [] false items
      if sectionItems.isEmpty then ⟨[], dwn⟩
      else
        let rows := groupIntoRows sectionItems
        match rows.findIdx? (fun r => testStaffMember (joinTexts r)) with
        | none => ⟨[], dwn⟩
        | some hIdx =>
          let headerRow := (rows[hIdx]?).getD []
          let overflow := overflowHeaderItems rows hIdx
          let hps := headerRow.map (fun it => HeaderPosition.mk it.text it.x it.page) ++
            overflow.map (fun it => HeaderPosition.mk it.text it.x it.page)
          let cmap := buildCanonicalNameMap hps
          ⟨assembleRows hps cmap rows (dataStartIndex rows hIdx), dwn⟩

/-! ## Spec-worded predicates, for comparison against the embedded source -/

/-- The Row Assembler skip condition as the claim words it: concatenated
text starts with the totals keyword, or some fragment **equals** that
keyword exactly, or the text matches the footer phrase. -/
def specRowSkip (row : List TextItem) : Bool :=
  let rowText := joinTexts row
  startsWithCI "total" rowText ||
    row.any (fun it => lowerStr it.text == "total") ||
    containsCI "report will display" rowText

/-- The amended skip condition: as above but with "some fragment **starts
with** the keyword" (and the prefix test applied to the trimmed joined
text, as the source does). -/
def amendedRowSkip (row : List TextItem) : Bool :=
  let rowText := joinTexts row
  startsWithCI "total" (jsTrim rowText) ||
    row.any (fun it => startsWithCI "total" it.text) ||
    containsCI "report will display" rowText

/-- The row's first cell text is exactly `Total`, case-insensitively. -/
def firstCellTotal (row : List TextItem) : Bool :=
  match row.head? with
  | some it => lowerStr it.text == "total"
  | none => false

/-- The claim's reading of "predominantly non-numeric": a strict majority
of the row's fragments are non-numeric after stripping currency, percent,
comma and whitespace characters. -/
def predominantlyNonNumeric (row : List TextItem) : Bool :=
  decide (row.length < 2 * row.countP fragNonNumeric)

/-- The overflow-continuation condition as the claim words it: the next row
exists, lies on a different page than the header row, and its fragments are
predominantly non-numeric. -/
def specOverflowCond (rows : List (List TextItem)) (hIdx : ℕ) : Bool :=
  match rows[hIdx + 1]? with
  | none => false
  | some nextRow =>
    match rowPage? nextRow with
    | none => false
    | some np =>
      decide (some np ≠ rowPage? ((rows[hIdx]?).getD [])) &&
        predominantlyNonNumeric nextRow

/-- The amended overflow condition: as above, but requiring only that **at
least one** fragment of the next row is non-numeric. -/
def amendedOverflowCond (rows : List (List TextItem)) (hIdx : ℕ) : Bool :=
  match rows[hIdx + 1]? with
  | none => false
  | some nextRow =>
    match rowPage? nextRow with
    | none => false
    | some np =>
      decide (some np ≠ rowPage? ((rows[hIdx]?).getD [])) &&
        nextRow.any fragNonNumeric

/-- No prefix merge applies anywhere in the header list: no two distinct
positions carry normalised names in a starts-with relation. -/
def noMergeOverlap (headers : List HeaderPosition) : Prop :=
  ∀ i, i < headers.length → ∀ j, j < headers.length → i ≠ j →
    jsStartsWith (normName (nameAt headers i)) (normName (nameAt headers j)) = false ∧
      jsStartsWith (normName (nameAt headers j)) (normName (nameAt headers i)) = false

/-- A fragment list on which the row comparator is consistent: two distinct
fragments either share a y (and then differ in x), or their y gap exceeds
the tolerance.  On such lists the comparator is a strict total order, so
every stable sort agrees. -/
def tieFreeConsistent (l : List TextItem) : Prop :=
  ∀ a ∈ l, ∀ b ∈ l, a ≠ b → (a.y = b.y ∧ a.x ≠ b.x) ∨ |a.y - b.y| > Y_TOLERANCE

/-- Rows ordered top-to-bottom: every fragment of an earlier row lies
strictly above every fragment of a later row. -/
def rowAbove (r₁ r₂ : List TextItem) : Prop :=
  ∀ a ∈ r₁, ∀ b ∈ r₂, a.y > b.y

/-- The candidate list of `assignToColumn`: headers on the fragment's page
when any exist, otherwise the full list. -/
def candidatesOf (p : ℕ) (hps : List HeaderPosition) : List HeaderPosition :=
  let samePage := hps.filter (fun hp => hp.page == p)
  if samePage.isEmpty then hps else samePage

/-! # Theorems -/

/-! ## Generic helper lemmas -/

theorem leadsL_self (l : List Char) : leadsL l l = true := by
  induction l with
  | nil => rfl
  | cons c rest ih => simp [leadsL, ih]


set_option maxHeartbeats 2000000 in
/-- C9: numeric coercion strips `£`, commas and one trailing percent sign,
parses the remainder, and returns the number on success, otherwise the
original trimmed string (also when the cleaned value is empty); with
`£1,234 → 1234`, `86% → 86` and `N/A` unchanged. -/
theorem c9_numeric_coercion :
    (∀ raw : String,
      (cleanedValue raw ≠ "" ∧ ∃ n, jsStringToNumber (cleanedValue raw) = some n ∧
        parseNumericValue raw = .num n) ∨
      ((cleanedValue raw = "" ∨ jsStringToNumber (cleanedValue raw) = none) ∧
        parseNumericValue raw = .str (jsTrim raw))) ∧
    parseNumericValue "£1,234" = .num (.fin 1234) ∧
    parseNumericValue "86%" = .num (.fin 86) ∧
    parseNumericValue "N/A" = .str "N/A" := by
  refine ⟨?_, by decide, by decide, by decide⟩
  intro raw
  by_cases h1 : jsTrim raw = ""
  · right
    constructor
    · left
      unfold cleanedValue
      rw [h1]
      decide
    · unfold parseNumericValue
      rw [if_pos h1]
  · cases h3 : jsStringToNumber (cleanedValue raw) with
    | none =>
      refine Or.inr ⟨Or.inr rfl, ?_⟩
      unfold parseNumericValue
      rw [if_neg h1, h3]
    | some n =>
      by_cases h2 : cleanedValue raw = ""
      · refine Or.inr ⟨Or.inl h2, ?_⟩
        unfold parseNumericValue
        rw [if_neg h1, h3]
        show (if cleanedValue raw = "" then JSValue.str (jsTrim raw)
          else JSValue.num n) = JSValue.str (jsTrim raw)
        rw [if_pos h2]
      · refine Or.inl ⟨h2, n, rfl, ?_⟩
        unfold parseNumericValue
        rw [if_neg h1, h3]
        show (if cleanedValue raw = "" then JSValue.str (jsTrim raw)
          else JSValue.num n) = JSValue.num n
        rw [if_neg h2]

set_option maxHeartbeats 2000000 in
/-- C2 counterexample: the engine skips the row `["Alice", "Totally"]`
(a fragment merely *starts with* the totals keyword), while the claim's
skip condition — concatenated text starts with the keyword, some fragment
*equals* the keyword, or the footer phrase matches — does not hold, so the
claimed "exactly when" is false at this input. -/
theorem c2_counterexample :
    rowSkip [⟨"Alice", 0, 0, 1⟩, ⟨"Totally", 5, 0, 1⟩] = true ∧
    specRowSkip [⟨"Alice", 0, 0, 1⟩, ⟨"Totally", 5, 0, 1⟩] = false := by
  exact ⟨by decide, by decide⟩

/-- C2 (amended): a row is skipped exactly when its trimmed joined text
starts with the totals keyword, or some fragment's text starts with the
keyword, or the joined text contains the footer phrase; consequently a row
whose first cell is exactly `Total` (case-insensitive) never contributes an
output row. -/
theorem c2_amended :
    (∀ row, rowSkip row = amendedRowSkip row) ∧
    (∀ (hps : List HeaderPosition) (cmap : List (String × String))
      (row : List TextItem),
      firstCellTotal row = true → processRow hps cmap row = none) := by
  constructor
  · intro row
    rfl
  · intro hps cmap row h
    have hskip : rowSkip row = true := by
      cases row with
      | nil => simp [firstCellTotal] at h
      | cons it rest =>
        have h' : (lowerStr it.text == "total") = true := h
        have hl : lowerStr it.text = "total" := eq_of_beq h'
        have hdata : lowerL it.text.data = "total".data := congrArg String.data hl
        have hstart : startsWithCI "total" it.text = true := by
          unfold startsWithCI
          rw [hdata]
          exact leadsL_self _
        unfold rowSkip
        simp [hstart]
    simp [processRow, hskip]

set_option maxHeartbeats 1000000 in
/-- C2 witness for the amended totals-exclusion: a concrete first-cell
`Total` row is dropped by the assembler. -/
theorem c2_amended_witness :
    firstCellTotal [⟨"Total", 0, 0, 1⟩] = true ∧
    processRow [] [] [⟨"Total", 0, 0, 1⟩] = none :=
  ⟨by decide, c2_amended.2 [] [] [⟨"Total", 0, 0, 1⟩] (by decide)⟩

set_option maxHeartbeats 2000000 in
/-- C3 counterexample: with a header row on page 1 and a next row on page 2
holding one non-numeric and two numeric fragments, the engine does treat the
next row as an overflow header continuation (advancing the data start to
index 2), although the row is not predominantly non-numeric, so the claimed
"if and only if" is false at this input. -/
theorem c3_counterexample :
    (overflowHeaderItems
        [[⟨"Staff Member", 0, 100, 1⟩],
          [⟨"abc", 0, 50, 2⟩, ⟨"1", 30, 50, 2⟩, ⟨"2", 60, 50, 2⟩]] 0).isEmpty = false ∧
    dataStartIndex
        [[⟨"Staff Member", 0, 100, 1⟩],
          [⟨"abc", 0, 50, 2⟩, ⟨"1", 30, 50, 2⟩, ⟨"2", 60, 50, 2⟩]] 0 = 2 ∧
    specOverflowCond
        [[⟨"Staff Member", 0, 100, 1⟩],
          [⟨"abc", 0, 50, 2⟩, ⟨"1", 30, 50, 2⟩, ⟨"2", 60, 50, 2⟩]] 0 = false := by
  refine ⟨by decide, by decide, by decide⟩

/-- C3 (amended): the next row is consumed as an overflow header
continuation — its fragments appended as header positions and the
data-start index advanced one further — if and only if it exists, lies on a
different page than the header row, and **at least one** of its fragments
is non-numeric after stripping currency, percent, comma and whitespace
characters. -/
theorem c3_amended :
    ∀ (rows : List (List TextItem)) (hIdx : ℕ),
      (!(overflowHeaderItems rows hIdx).isEmpty) = amendedOverflowCond rows hIdx ∧
      overflowHeaderItems rows hIdx =
        (if amendedOverflowCond rows hIdx = true then (rows[hIdx + 1]?).getD [] else []) ∧
      dataStartIndex rows hIdx =
        (if amendedOverflowCond rows hIdx = true then hIdx + 2 else hIdx + 1) := by
  intro rows hIdx
  have hover : overflowHeaderItems rows hIdx =
      (if amendedOverflowCond rows hIdx = true then (rows[hIdx + 1]?).getD [] else []) := by
    unfold overflowHeaderItems amendedOverflowCond
    cases h1 : rows[hIdx + 1]? with
    | none => simp
    | some nextRow =>
      cases h2 : rowPage? nextRow with
      | none => simp [h2]
      | some np =>
        by_cases h3 : some np ≠ rowPage? ((rows[hIdx]?).getD [])
        · by_cases h4 : nextRow.any fragNonNumeric
          · simp [h2, h3, h4]
          · simp [h2, h3, h4]
        · simp [h2, h3]
  have hnonempty : amendedOverflowCond rows hIdx = true →
      ((rows[hIdx + 1]?).getD []).isEmpty = false := by
    intro hc
    cases h1 : rows[hIdx + 1]? with
    | none =>
      unfold amendedOverflowCond at hc
      rw [h1] at hc
      simp at hc
    | some nextRow =>
      cases nextRow with
      | nil =>
        unfold amendedOverflowCond at hc
        rw [h1] at hc
        simp [rowPage?] at hc
      | cons a t => simp
  have hfalse : ¬ amendedOverflowCond rows hIdx = true →
      amendedOverflowCond rows hIdx = false := by
    intro hc
    cases h : amendedOverflowCond rows hIdx
    · rfl
    · exact absurd h hc
  refine ⟨?_, hover, ?_⟩
  · rw [hover]
    by_cases hc : amendedOverflowCond rows hIdx = true
    · rw [if_pos hc, hc, hnonempty hc]
      rfl
    · rw [if_neg hc, hfalse hc]
      rfl
  · unfold dataStartIndex
    rw [hover]
    by_cases hc : amendedOverflowCond rows hIdx = true
    · rw [if_pos hc, hnonempty hc]
      simp [if_pos hc]
    · rw [if_neg hc]
      simp [if_neg hc]

/-- C1 counterexample: on a single-header input no merge applies, yet the
returned map does not contain the header's raw name as a key at all — the
identity resolution lives in the caller's `get(...) ?? raw` fallback, not
in the map. -/
theorem c1_counterexample :
    mapGet (buildCanonicalNameMap [⟨"A", 0, 1⟩]) "A" = none := by decide

/-- Helper for C1: when no starts-with overlap exists anywhere, one inner
pass of the merger leaves the state (canonical name, used set, map)
untouched. -/
theorem cnmInner_noop (headers : List HeaderPosition) (i : ℕ)
    (hno : noMergeOverlap headers) (hi : i < headers.length) :
    ∀ js : List ℕ, (∀ j ∈ js, i ≠ j ∧ j < headers.length) →
      js.foldl (cnmInner headers)
          (nameAt headers i, ([] : List ℕ), ([] : List (String × String))) =
        (nameAt headers i, [], []) := by
  intro js
  induction js with
  | nil => intro _; rfl
  | cons j rest ih =>
    intro hj
    have hj1 := hj j (List.mem_cons_self j rest)
    have hstep : cnmInner headers (nameAt headers i, [], []) j =
        (nameAt headers i, [], []) := by
      have hcond := hno i hi j hj1.2 hj1.1
      unfold cnmInner
      simp [hcond.1, hcond.2]
    rw [List.foldl_cons, hstep]
    exact ih (fun j' hj' => hj j' (List.mem_cons_of_mem _ hj'))

/-- Helper for C1: under the same hypothesis the outer loop produces an
empty used-set and an empty map. -/
theorem cnmOuter_noop (headers : List HeaderPosition) (hno : noMergeOverlap headers) :
    ∀ is : List ℕ, (∀ i ∈ is, i < headers.length) →
      is.foldl (cnmOuter headers) (([] : List ℕ), ([] : List (String × String))) =
        ([], []) := by
  intro is
  induction is with
  | nil => intro _; rfl
  | cons i rest ih =>
    intro hmem
    have hi := hmem i (List.mem_cons_self i rest)
    have hstep : cnmOuter headers ([], []) i = ([], []) := by
      unfold cnmOuter
      have hinner := cnmInner_noop headers i hno hi
        (List.range' (i + 1) (headers.length - (i + 1)))
        (by
          intro j hj
          have hj' := List.mem_range'_1.mp hj
          omega)
      simp [hinner]
    rw [List.foldl_cons, hstep]
    exact ih (fun i' hi' => hmem i' (List.mem_cons_of_mem _ hi'))

/-- C1 (amended): the merger's map contains a key only for names involved
in a prefix merge; when no merge applies anywhere the map is empty, and
every raw name resolves to itself through the identity fallback
(`get(raw) ?? raw`) that the Row Assembler applies. -/
theorem c1_amended :
    ∀ headers : List HeaderPosition, noMergeOverlap headers →
      buildCanonicalNameMap headers = [] ∧
      ∀ name, resolveCanonical (buildCanonicalNameMap headers) name = name := by
  intro headers hno
  have hmap : buildCanonicalNameMap headers = [] := by
    unfold buildCanonicalNameMap
    rw [cnmOuter_noop headers hno (List.range headers.length)
      (fun i hi => List.mem_range.mp hi)]
    rfl
  refine ⟨hmap, fun name => ?_⟩
  rw [hmap]
  rfl

/-- C1 witness: a concrete overlap-free header list on which the map is
empty and resolution is the identity. -/
theorem c1_amended_witness :
    noMergeOverlap [⟨"Alpha", 0, 1⟩, ⟨"Beta", 10, 1⟩] ∧
    buildCanonicalNameMap [⟨"Alpha", 0, 1⟩, ⟨"Beta", 10, 1⟩] = [] ∧
    resolveCanonical (buildCanonicalNameMap [⟨"Alpha", 0, 1⟩, ⟨"Beta", 10, 1⟩])
      "Alpha" = "Alpha" :=
  ⟨by unfold noMergeOverlap; decide,
    (c1_amended _ (by unfold noMergeOverlap; decide)).1,
    (c1_amended _ (by unfold noMergeOverlap; decide)).2 "Alpha"⟩

/-- Helper for C8: one step of the best-match scan. -/
theorem pickBest_cons (x : ℚ) (b c : HeaderPosition) (rest : List HeaderPosition) :
    pickBest x b (c :: rest) =
      if |x - c.x| < |x - b.x| then pickBest x c rest else pickBest x b rest := rfl

/-- Helper for C8: the best-match scan returns its seed or a list element. -/
theorem pickBest_mem (x : ℚ) (b : HeaderPosition) (l : List HeaderPosition) :
    pickBest x b l = b ∨ pickBest x b l ∈ l := by
  induction l generalizing b with
  | nil => left; rfl
  | cons c rest ih =>
    rw [pickBest_cons]
    by_cases hlt : |x - c.x| < |x - b.x|
    · rw [if_pos hlt]
      rcases ih c with h1 | h1
      · right; rw [h1]; exact List.mem_cons_self c rest
      · right; exact List.mem_cons_of_mem _ h1
    · rw [if_neg hlt]
      rcases ih b with h1 | h1
      · left; exact h1
      · right; exact List.mem_cons_of_mem _ h1

/-- Helper for C8: the scan's result minimises the distance over the seed
and all candidates. -/
theorem pickBest_min (x : ℚ) (b : HeaderPosition) (l : List HeaderPosition) :
    |x - (pickBest x b l).x| ≤ |x - b.x| ∧
    ∀ h ∈ l, |x - (pickBest x b l).x| ≤ |x - h.x| := by
  induction l generalizing b with
  | nil => exact ⟨le_refl _, by simp⟩
  | cons c rest ih =>
    rw [pickBest_cons]
    by_cases hlt : |x - c.x| < |x - b.x|
    · rw [if_pos hlt]
      refine ⟨le_trans (ih c).1 (le_of_lt hlt), ?_⟩
      intro h hm
      rcases List.mem_cons.mp hm with h1 | hm'
      · rw [h1]; exact (ih c).1
      · exact (ih c).2 h hm'
    · rw [if_neg hlt]
      refine ⟨(ih b).1, ?_⟩
      intro h hm
      rcases List.mem_cons.mp hm with h1 | hm'
      · rw [h1]; exact le_trans (ih b).1 (not_lt.mp hlt)
      · exact (ih b).2 h hm'

/-- Helper for C8: the scan's result is the *first* distance-minimal entry:
everything listed before it is strictly farther. -/
theorem pickBest_first (x : ℚ) (b : HeaderPosition) (l : List HeaderPosition) :
    ∃ pre post, b :: l = pre ++ (pickBest x b l) :: post ∧
      ∀ h ∈ pre, |x - (pickBest x b l).x| < |x - h.x| := by
  induction l generalizing b with
  | nil => exact ⟨[], [], rfl, by simp⟩
  | cons c rest ih =>
    by_cases hlt : |x - c.x| < |x - b.x|
    · obtain ⟨pre, post, heq, hpre⟩ := ih c
      have hbest : pickBest x b (c :: rest) = pickBest x c rest := by
        rw [pickBest_cons, if_pos hlt]
      refine ⟨b :: pre, post, ?_, ?_⟩
      · rw [hbest, List.cons_append, ← heq]
      · intro h hm
        rw [hbest]
        rcases List.mem_cons.mp hm with h1 | hm'
        · rw [h1]
          exact lt_of_le_of_lt (pickBest_min x c rest).1 hlt
        · exact hpre h hm'
    · obtain ⟨pre, post, heq, hpre⟩ := ih b
      have hbest : pickBest x b (c :: rest) = pickBest x b rest := by
        rw [pickBest_cons, if_neg hlt]
      cases pre with
      | nil =>
        rw [List.nil_append] at heq
        have h1 : b = pickBest x b rest := ((List.cons.injEq _ _ _ _).mp heq).1
        refine ⟨[], c :: rest, ?_, by simp⟩
        rw [hbest, ← h1]
        rfl
      | cons p pre' =>
        rw [List.cons_append] at heq
        have h1 : b = p := ((List.cons.injEq _ _ _ _).mp heq).1
        have h2 : rest = pre' ++ pickBest x b rest :: post :=
          ((List.cons.injEq _ _ _ _).mp heq).2
        have hbmem : b ∈ p :: pre' := by
          rw [← h1]
          exact List.mem_cons_self b pre'
        have hblt : |x - (pickBest x b rest).x| < |x - b.x| := hpre b hbmem
        refine ⟨b :: c :: pre', post, ?_, ?_⟩
        · rw [hbest]
          show b :: c :: rest = b :: c :: (pre' ++ pickBest x b rest :: post)
          exact congrArg (fun l => b :: c :: l) h2
        · intro h hm
          rw [hbest]
          rcases List.mem_cons.mp hm with h3 | hm'
          · rw [h3]; exact hblt
          · rcases List.mem_cons.mp hm' with h3 | hm''
            · rw [h3]
              exact lt_of_lt_of_le hblt (not_lt.mp hlt)
            · exact hpre h (List.mem_cons_of_mem _ hm'')

/-- Helper for C8: `assignToColumn` is the best-match scan over the
page-restricted (with fallback) candidate list. -/
theorem assign_eq_pick (x : ℚ) (p : ℕ) (h : HeaderPosition) (t : List HeaderPosition) :
    ∃ c cs, candidatesOf p (h :: t) = c :: cs ∧
      assignToColumn x p (h :: t) = some (pickBest x c cs).name := by
  cases hf : (h :: t).filter (fun hp => hp.page == p) with
  | nil =>
    refine ⟨h, t, ?_, ?_⟩
    · unfold candidatesOf
      rw [hf]
      rfl
    · show (match (h :: t).filter (fun hp => hp.page == p) with
        | [] => some (pickBest x h t).name
        | c :: cs => some (pickBest x c cs).name) = some (pickBest x h t).name
      rw [hf]
  | cons c cs =>
    refine ⟨c, cs, ?_, ?_⟩
    · unfold candidatesOf
      rw [hf]
      rfl
    · show (match (h :: t).filter (fun hp => hp.page == p) with
        | [] => some (pickBest x h t).name
        | c2 :: cs2 => some (pickBest x c2 cs2).name) = some (pickBest x c cs).name
      rw [hf]

/-- C8: the Column Assigner returns `null` exactly on an empty header list;
otherwise it picks, among the headers on the fragment's page (falling back
to all headers when none share the page), the first candidate of minimal
`|x − headerX|` (ties to the earliest listed); when some header shares the
fragment's page, the assigned name always belongs to a header on that page. -/
theorem c8_assign_to_column :
    (∀ (x : ℚ) (p : ℕ), assignToColumn x p [] = none) ∧
    (∀ (x : ℚ) (p : ℕ) (hps : List HeaderPosition),
      (assignToColumn x p hps).isNone = hps.isEmpty) ∧
    (∀ (x : ℚ) (p : ℕ) (hps : List HeaderPosition), hps ≠ [] →
      ∃ h pre post, candidatesOf p hps = pre ++ h :: post ∧
        assignToColumn x p hps = some h.name ∧
        (∀ h2 ∈ pre, |x - h.x| < |x - h2.x|) ∧
        (∀ h2 ∈ candidatesOf p hps, |x - h.x| ≤ |x - h2.x|)) ∧
    (∀ (x : ℚ) (p : ℕ) (hps : List HeaderPosition) (nm : String),
      (∃ h ∈ hps, h.page = p) → assignToColumn x p hps = some nm →
      ∃ h ∈ hps, h.page = p ∧ h.name = nm) := by
  refine ⟨fun x p => rfl, ?_, ?_, ?_⟩
  · intro x p hps
    cases hps with
    | nil => rfl
    | cons h t =>
      obtain ⟨c, cs, _, hassign⟩ := assign_eq_pick x p h t
      rw [hassign]
      rfl
  · intro x p hps hne
    cases hps with
    | nil => exact absurd rfl hne
    | cons h t =>
      obtain ⟨c, cs, hcand, hassign⟩ := assign_eq_pick x p h t
      obtain ⟨pre, post, heq, hpre⟩ := pickBest_first x c cs
      refine ⟨pickBest x c cs, pre, post, ?_, hassign, hpre, ?_⟩
      · rw [hcand, heq]
      · intro h2 hm
        rw [hcand] at hm
        rcases List.mem_cons.mp hm with h3 | hm'
        · rw [h3]
          exact (pickBest_min x c cs).1
        · exact (pickBest_min x c cs).2 h2 hm'
  · intro x p hps nm hex hassign
    cases hps with
    | nil =>
      obtain ⟨h, hm, _⟩ := hex
      exact absurd hm (List.not_mem_nil h)
    | cons h t =>
      obtain ⟨c, cs, hcand, hassign'⟩ := assign_eq_pick x p h t
      have hfilter : candidatesOf p (h :: t) = (h :: t).filter (fun hp => hp.page == p) := by
        unfold candidatesOf
        obtain ⟨hh, hhm, hhp⟩ := hex
        have hmem : hh ∈ (h :: t).filter (fun hp => hp.page == p) := by
          rw [List.mem_filter]
          refine ⟨hhm, ?_⟩
          rw [hhp]
          exact beq_self_eq_true p
        cases hft : (h :: t).filter (fun hp => hp.page == p) with
        | nil =>
          rw [hft] at hmem
          exact absurd hmem (List.not_mem_nil hh)
        | cons a b => simp
      have hbm : pickBest x c cs ∈ c :: cs := by
        rcases pickBest_mem x c cs with h1 | h1
        · rw [h1]; exact List.mem_cons_self c cs
        · exact List.mem_cons_of_mem _ h1
      rw [← hcand, hfilter] at hbm
      rw [List.mem_filter] at hbm
      rw [hassign'] at hassign
      have hnm : (pickBest x c cs).name = nm := by
        injection hassign
      exact ⟨pickBest x c cs, hbm.1, eq_of_beq hbm.2, hnm⟩

/-- C8 witness: with headers on pages 1 and 2 and a fragment on page 2, the
assigner returns the page-2 header's name. -/
theorem c8_witness :
    (([⟨"A", 0, 1⟩, ⟨"B", 10, 2⟩] : List HeaderPosition) ≠ []) ∧
    assignToColumn 100 2 [⟨"A", 0, 1⟩, ⟨"B", 10, 2⟩] = some "B" ∧
    (∃ h ∈ ([⟨"A", 0, 1⟩, ⟨"B", 10, 2⟩] : List HeaderPosition),
      h.page = 2 ∧ h.name = "B") :=
  ⟨by decide, by decide,
    c8_assign_to_column.2.2.2 100 2 [⟨"A", 0, 1⟩, ⟨"B", 10, 2⟩] "B"
      ⟨⟨"B", 10, 2⟩, by decide, rfl⟩ (by decide)⟩

/-- C4: structural absence is not an error: an empty stream, a stream with
no section-anchor fragment, or an isolated section with no header row all
yield an empty row list together with the week number found by the
independent full-stream scan (which is `none` on the empty stream). -/
theorem c4_structural_absence :
    detectWeek (joinTexts ([] : List TextItem)) = none ∧
    ∀ items : List TextItem,
      (items = [] ∨ items.find? (fun it => testLastWeek it.text) = none ∨
        (∀ r ∈ groupIntoRows (sectionItemsOf items),
          testStaffMember (joinTexts r) = false)) →
      parsePdf items = ⟨[], detectWeek (joinTexts items)⟩ := by
  refine ⟨by decide, ?_⟩
  intro items hyp
  by_cases hemp : items.isEmpty = true
  · have heq : items = [] := List.isEmpty_iff.mp hemp
    subst heq
    decide
  · have hne : items.isEmpty = false := by rwa [Bool.not_eq_true] at hemp
    cases hfind : items.find? (fun it => testLastWeek it.text) with
    | none => simp only [parsePdf, hne, hfind, Bool.false_eq_true, if_false]
    | some hi =>
      rcases hyp with h1 | h2 | h3
      · subst h1
        simp at hne
      · rw [h2] at hfind
        exact Option.noConfusion hfind
      · have hsec : sectionItemsOf items = sectionLoop hi [] false items := by
          unfold sectionItemsOf
          rw [hfind]
        by_cases hs : (sectionLoop hi [] false items).isEmpty = true
        · simp only [parsePdf, hne, hfind, hs, Bool.false_eq_true, if_false, if_true]
        · have hs' : (sectionLoop hi [] false items).isEmpty = false := by
            rwa [Bool.not_eq_true] at hs
          have hidx : (groupIntoRows (sectionLoop hi [] false items)).findIdx?
              (fun r => testStaffMember (joinTexts r)) = none := by
            rw [List.findIdx?_eq_none_iff]
            intro r hr
            rw [← hsec] at hr
            exact h3 r hr
          simp only [parsePdf, hne, hfind, hs', hidx, Bool.false_eq_true, if_false]

set_option maxHeartbeats 2000000 in
/-- C4 witness: a single-fragment stream without the anchor parses to an
empty row list and a `none` week number. -/
theorem c4_witness :
    (([⟨"hello", 0, 0, 1⟩] : List TextItem).find?
      (fun it => testLastWeek it.text) = none) ∧
    parsePdf [⟨"hello", 0, 0, 1⟩] = ⟨[], detectWeek (joinTexts [⟨"hello", 0, 0, 1⟩])⟩ :=
  ⟨by decide, c4_structural_absence.2 _ (Or.inr (Or.inl (by decide)))⟩

/-- Helper for C5: a successful week-pattern match at a position implies the
anchor phrase (`last` + whitespace + `week`) matches there too. -/
theorem weekDigitsAt_anchor (cs : List Char) :
    (weekDigitsAt cs).isSome = true → anchorLWAt cs = true := by
  unfold weekDigitsAt anchorLWAt
  cases hd : dropLit "last".data cs with
  | none => simp
  | some r1 =>
    by_cases hw : (List.takeWhile jsWhite r1).isEmpty
    · simp [hw]
    · cases hd2 : dropLit "week".data (List.dropWhile jsWhite r1) with
      | none => simp [hw, hd2]
      | some r3 =>
        intro _
        have hlead : leadsL "week".data (List.dropWhile jsWhite r1) = true := by
          unfold dropLit at hd2
          by_cases hl : leadsL "week".data (List.dropWhile jsWhite r1) = true
          · exact hl
          · rw [if_neg ?_] at hd2
            · exact Option.noConfusion hd2
            · intro hc
              exact hl hc
        simp [hw, hlead]

/-- Helper for C5: a successful search for the week pattern implies the
anchor phrase occurs somewhere in the text. -/
theorem search_anchor (cs : List Char) :
    (searchWeekDigits cs).isSome = true → anyPos anchorLWAt cs = true := by
  induction cs with
  | nil => intro h; simp [searchWeekDigits] at h
  | cons c rest ih =>
    unfold searchWeekDigits anyPos
    cases hw : weekDigitsAt (c :: rest) with
    | some ds =>
      intro _
      have := weekDigitsAt_anchor (c :: rest) (by rw [hw]; rfl)
      rw [this]
      rfl
    | none =>
      intro h
      rw [ih h, Bool.or_true]

set_option maxHeartbeats 4000000 in
/-- C5: the week scan runs over the space-joined full stream, independent
of section isolation: the `detectedWeekNumber` field always equals the
full-text scan; the anchor followed by `202547` yields 47 (both at string
level and through `parsePdf` on a fragment stream); and a text without the
anchor phrase yields `none`. -/
theorem c5_marker_scanner :
    (∀ items : List TextItem,
      (parsePdf items).detectedWeekNumber = detectWeek (joinTexts items)) ∧
    detectWeek "Foo Last Week 202547 bar" = some 47 ∧
    (parsePdf [⟨"Last", 0, 100, 1⟩, ⟨"Week", 10, 100, 1⟩,
      ⟨"202547", 20, 100, 1⟩]).detectedWeekNumber = some 47 ∧
    (∀ s : String, hasAnchorLW s = false → detectWeek s = none) := by
  refine ⟨?_, by decide, by decide, ?_⟩
  · intro items
    by_cases hemp : items.isEmpty = true
    · have heq : items = [] := List.isEmpty_iff.mp hemp
      subst heq
      decide
    · have hne : items.isEmpty = false := by rwa [Bool.not_eq_true] at hemp
      cases hfind : items.find? (fun it => testLastWeek it.text) with
      | none => simp only [parsePdf, hne, hfind, Bool.false_eq_true, if_false]
      | some hi =>
        by_cases hs : (sectionLoop hi [] false items).isEmpty = true
        · simp only [parsePdf, hne, hfind, hs, Bool.false_eq_true, if_false, if_true]
        · have hs' : (sectionLoop hi [] false items).isEmpty = false := by
            rwa [Bool.not_eq_true] at hs
          cases hidx : (groupIntoRows (sectionLoop hi [] false items)).findIdx?
              (fun r => testStaffMember (joinTexts r)) with
          | none => simp only [parsePdf, hne, hfind, hs', hidx, Bool.false_eq_true, if_false]
          | some hIdx => simp only [parsePdf, hne, hfind, hs', hidx, Bool.false_eq_true, if_false]
  · intro s h
    unfold detectWeek
    cases hsw : searchWeekDigits (lowerL s.data) with
    | none => rfl
    | some ds =>
      have hany := search_anchor (lowerL s.data) (by rw [hsw]; rfl)
      unfold hasAnchorLW at h
      rw [h] at hany
      exact Bool.noConfusion hany

/-- C5 witness: a text without the anchor phrase yields no week number. -/
theorem c5_witness :
    hasAnchorLW "hello world" = false ∧ detectWeek "hello world" = none :=
  ⟨by decide, c5_marker_scanner.2.2.2 "hello world" (by decide)⟩

/-! ## Stable-sort lemmas -/

/-- One step of stable insertion. -/
theorem insertStable_cons (le : α → α → Bool) (a b : α) (l : List α) :
    insertStable le a (b :: l) =
      if le b a then b :: insertStable le a l else a :: b :: l := rfl

/-- Stable insertion permutes to consing. -/
theorem insertStable_perm (le : α → α → Bool) (a : α) (l : List α) :
    List.Perm (insertStable le a l) (a :: l) := by
  induction l with
  | nil => exact List.Perm.refl _
  | cons b t ih =>
    rw [insertStable_cons]
    by_cases h : le b a = true
    · rw [if_pos h]
      exact List.Perm.trans (List.Perm.cons b ih) (List.Perm.swap a b t)
    · rw [if_neg h]

/-- The insertion fold permutes to appending. -/
theorem foldl_insert_perm (le : α → α → Bool) :
    ∀ (t acc : List α),
      List.Perm (t.foldl (fun acc x => insertStable le x acc) acc) (acc ++ t) := by
  intro t
  induction t with
  | nil => intro acc; simp
  | cons x t ih =>
    intro acc
    rw [List.foldl_cons]
    refine List.Perm.trans (ih (insertStable le x acc)) ?_
    refine List.Perm.trans ((insertStable_perm le x acc).append_right t) ?_
    exact List.perm_middle.symm

/-- The stable sort is a permutation of its input. -/
theorem sortByStable_perm (le : α → α → Bool) (l : List α) :
    List.Perm (sortByStable le l) l := by
  have h := foldl_insert_perm le l []
  simpa [sortByStable] using h

/-- Stable insertion preserves sortedness, given totality and transitivity
of the comparator on a base set `u` containing all involved elements. -/
theorem insertStable_pairwise (le : α → α → Bool) (u : List α)
    (htot : ∀ x ∈ u, ∀ y ∈ u, le x y = true ∨ le y x = true)
    (htrans : ∀ x ∈ u, ∀ y ∈ u, ∀ z ∈ u,
      le x y = true → le y z = true → le x z = true)
    (a : α) (ha : a ∈ u) :
    ∀ l : List α, (∀ x ∈ l, x ∈ u) →
      List.Pairwise (fun x y => le x y = true) l →
      List.Pairwise (fun x y => le x y = true) (insertStable le a l) := by
  intro l
  induction l with
  | nil =>
    intro _ _
    exact List.pairwise_singleton _ a
  | cons b t ih =>
    intro hl hp
    have hb : b ∈ u := hl b (List.mem_cons_self b t)
    have ht : ∀ x ∈ t, x ∈ u := fun x hx => hl x (List.mem_cons_of_mem _ hx)
    obtain ⟨hbt, hpt⟩ := List.pairwise_cons.mp hp
    rw [insertStable_cons]
    by_cases hba : le b a = true
    · rw [if_pos hba]
      refine List.pairwise_cons.mpr ⟨?_, ih ht hpt⟩
      intro x hx
      have hmem : x = a ∨ x ∈ t :=
        List.mem_cons.mp ((insertStable_perm le a t).mem_iff.mp hx)
      rcases hmem with rfl | hxt
      · exact hba
      · exact hbt x hxt
    · rw [if_neg hba]
      have hab : le a b = true := by
        rcases htot a ha b hb with h | h
        · exact h
        · exact absurd h hba
      refine List.pairwise_cons.mpr ⟨?_, hp⟩
      intro x hx
      rcases List.mem_cons.mp hx with rfl | hxt
      · exact hab
      · exact htrans a ha b hb x (ht x hxt) hab (hbt x hxt)

/-- The stable sort produces a sorted list, under the same local totality
and transitivity hypotheses. -/
theorem sortByStable_pairwise (le : α → α → Bool) (u : List α)
    (htot : ∀ x ∈ u, ∀ y ∈ u, le x y = true ∨ le y x = true)
    (htrans : ∀ x ∈ u, ∀ y ∈ u, ∀ z ∈ u,
      le x y = true → le y z = true → le x z = true)
    (l : List α) (hl : ∀ x ∈ l, x ∈ u) :
    List.Pairwise (fun x y => le x y = true) (sortByStable le l) := by
  have key : ∀ (t : List α), (∀ x ∈ t, x ∈ u) →
      ∀ acc : List α, (∀ x ∈ acc, x ∈ u) →
      List.Pairwise (fun x y => le x y = true) acc →
      List.Pairwise (fun x y => le x y = true)
        (t.foldl (fun acc x => insertStable le x acc) acc) := by
    intro t
    induction t with
    | nil => intro _ acc _ hacc; exact hacc
    | cons x t ih =>
      intro htm acc haccm hacc
      rw [List.foldl_cons]
      have hx : x ∈ u := htm x (List.mem_cons_self x t)
      refine ih (fun y hy => htm y (List.mem_cons_of_mem _ hy))
        (insertStable le x acc) ?_
        (insertStable_pairwise le u htot htrans x hx acc haccm hacc)
      intro y hy
      rcases List.mem_cons.mp ((insertStable_perm le x acc).mem_iff.mp hy) with rfl | hya
      · exact hx
      · exact haccm y hya
  exact key l hl [] (by simp) List.Pairwise.nil

/-- Two sorted lists that are permutations of each other agree, given
antisymmetry of the comparator on a base set. -/
theorem sorted_perm_unique (le : α → α → Bool) (u : List α)
    (hanti : ∀ x ∈ u, ∀ y ∈ u, le x y = true → le y x = true → x = y) :
    ∀ l₁ l₂ : List α, (∀ x ∈ l₁, x ∈ u) → List.Perm l₁ l₂ →
      List.Pairwise (fun x y => le x y = true) l₁ →
      List.Pairwise (fun x y => le x y = true) l₂ → l₁ = l₂ := by
  intro l₁
  induction l₁ with
  | nil =>
    intro l₂ _ hperm _ _
    exact hperm.nil_eq
  | cons a t ih =>
    intro l₂ hsub hperm hp1 hp2
    cases l₂ with
    | nil => exact absurd hperm.eq_nil (by simp)
    | cons b t₂ =>
      by_cases hab : a = b
      · subst hab
        have := ih t₂ (fun x hx => hsub x (List.mem_cons_of_mem _ hx))
          hperm.cons_inv (List.pairwise_cons.mp hp1).2 (List.pairwise_cons.mp hp2).2
        rw [this]
      · have ha2 : a ∈ b :: t₂ := hperm.mem_iff.mp (List.mem_cons_self a t)
        have hb1 : b ∈ a :: t := hperm.symm.mem_iff.mp (List.mem_cons_self b t₂)
        have hab1 : le a b = true := by
          rcases List.mem_cons.mp hb1 with h | h
          · exact absurd h.symm hab
          · exact (List.pairwise_cons.mp hp1).1 b h
        have hba1 : le b a = true := by
          rcases List.mem_cons.mp ha2 with h | h
          · exact absurd h hab
          · exact (List.pairwise_cons.mp hp2).1 a h
        have hbu : b ∈ u := hsub b hb1
        exact absurd (hanti a (hsub a (List.mem_cons_self a t)) b hbu hab1 hba1) hab

/-! ## Properties of the row comparator -/

/-- Swapping arguments negates the comparator value. -/
theorem cmpFrag_antisymm (a b : TextItem) : cmpFrag b a = -cmpFrag a b := by
  unfold cmpFrag
  rw [abs_sub_comm a.y b.y]
  by_cases h : |b.y - a.y| > Y_TOLERANCE
  · rw [if_pos h, if_pos h]
    ring
  · rw [if_neg h, if_neg h]
    ring

/-- The comparator-derived order is total (unconditionally). -/
theorem leFrag_total (a b : TextItem) : leFrag a b = true ∨ leFrag b a = true := by
  unfold leFrag
  rcases le_total (cmpFrag a b) 0 with h | h
  · left
    exact decide_eq_true h
  · right
    rw [cmpFrag_antisymm]
    exact decide_eq_true (by linarith)

/-- On a consistent fragment set, any two fragments either share a y or are
separated by more than the tolerance. -/
theorem pairchar_of_consistent (u : List TextItem) (hc : tieFreeConsistent u) :
    ∀ a ∈ u, ∀ b ∈ u, a.y = b.y ∨ |a.y - b.y| > Y_TOLERANCE := by
  intro a ha b hb
  by_cases hab : a = b
  · left
    rw [hab]
  · rcases hc a ha b hb hab with ⟨h, _⟩ | h
    · left; exact h
    · right; exact h

/-- On a consistent fragment set the comparator-derived order is
transitive. -/
theorem leFrag_trans_of_consistent (u : List TextItem) (hc : tieFreeConsistent u) :
    ∀ x ∈ u, ∀ y ∈ u, ∀ z ∈ u,
      leFrag x y = true → leFrag y z = true → leFrag x z = true := by
  intro x hx y hy z hz hxy hyz
  have hxy' : cmpFrag x y ≤ 0 := of_decide_eq_true hxy
  have hyz' : cmpFrag y z ≤ 0 := of_decide_eq_true hyz
  have htol : (0 : ℚ) < Y_TOLERANCE := by norm_num [Y_TOLERANCE]
  refine decide_eq_true ?_
  rcases pairchar_of_consistent u hc x hx y hy with e1 | g1 <;>
    rcases pairchar_of_consistent u hc y hy z hz with e2 | g2
  · -- x.y = y.y, y.y = z.y: all x-comparisons
    have hc1 : ¬ |y.y - x.y| > Y_TOLERANCE := by
      rw [e1]
      simp
      linarith
    have hc2 : ¬ |z.y - y.y| > Y_TOLERANCE := by
      rw [e2]
      simp
      linarith
    have hc3 : ¬ |z.y - x.y| > Y_TOLERANCE := by
      rw [e1, e2]
      simp
      linarith
    rw [cmpFrag, if_neg hc1] at hxy'
    rw [cmpFrag, if_neg hc2] at hyz'
    rw [cmpFrag, if_neg hc3]
    linarith
  · -- x.y = y.y, gap between y and z
    have hc2 : |z.y - y.y| > Y_TOLERANCE := by
      rw [abs_sub_comm]
      exact g2
    rw [cmpFrag, if_pos hc2] at hyz'
    have hzy : z.y < y.y - Y_TOLERANCE := by
      rcases abs_cases (z.y - y.y) with ⟨h1, _⟩ | ⟨h1, _⟩
      · linarith [hc2, h1]
      · linarith [hc2, h1]
    have hc3 : |z.y - x.y| > Y_TOLERANCE := by
      rw [abs_sub_comm, abs_of_pos (by linarith [e1] : (0:ℚ) < x.y - z.y)]
      linarith [e1]
    rw [cmpFrag, if_pos hc3]
    linarith [e1]
  · -- gap between x and y, y.y = z.y
    have hc1 : |y.y - x.y| > Y_TOLERANCE := by
      rw [abs_sub_comm]
      exact g1
    rw [cmpFrag, if_pos hc1] at hxy'
    have hyx : y.y < x.y - Y_TOLERANCE := by
      rcases abs_cases (y.y - x.y) with ⟨h1, _⟩ | ⟨h1, _⟩
      · linarith [hc1, h1]
      · linarith [hc1, h1]
    have hc3 : |z.y - x.y| > Y_TOLERANCE := by
      rw [abs_sub_comm, abs_of_pos (by linarith [e2] : (0:ℚ) < x.y - z.y)]
      linarith [e2]
    rw [cmpFrag, if_pos hc3]
    linarith [e2]
  · -- both gaps
    have hc1 : |y.y - x.y| > Y_TOLERANCE := by
      rw [abs_sub_comm]
      exact g1
    have hc2 : |z.y - y.y| > Y_TOLERANCE := by
      rw [abs_sub_comm]
      exact g2
    rw [cmpFrag, if_pos hc1] at hxy'
    rw [cmpFrag, if_pos hc2] at hyz'
    have hyx : y.y < x.y - Y_TOLERANCE := by
      rcases abs_cases (y.y - x.y) with ⟨h1, _⟩ | ⟨h1, _⟩
      · linarith [hc1, h1]
      · linarith [hc1, h1]
    have hzy : z.y < y.y - Y_TOLERANCE := by
      rcases abs_cases (z.y - y.y) with ⟨h1, _⟩ | ⟨h1, _⟩
      · linarith [hc2, h1]
      · linarith [hc2, h1]
    have hc3 : |z.y - x.y| > Y_TOLERANCE := by
      rw [abs_sub_comm, abs_of_pos (by linarith : (0:ℚ) < x.y - z.y)]
      linarith
    rw [cmpFrag, if_pos hc3]
    linarith

/-- On a consistent fragment set the comparator-derived order is
antisymmetric. -/
theorem leFrag_antisymm_of_consistent (u : List TextItem) (hc : tieFreeConsistent u) :
    ∀ x ∈ u, ∀ y ∈ u, leFrag x y = true → leFrag y x = true → x = y := by
  intro x hx y hy hxy hyx
  by_contra hne
  have hxy' : cmpFrag x y ≤ 0 := of_decide_eq_true hxy
  have hyx' : cmpFrag y x ≤ 0 := of_decide_eq_true hyx
  have htol : (0 : ℚ) < Y_TOLERANCE := by norm_num [Y_TOLERANCE]
  rcases hc x hx y hy hne with ⟨hyy, hxx⟩ | hgap
  · have hc1 : ¬ |y.y - x.y| > Y_TOLERANCE := by
      rw [hyy]
      simp
      linarith
    have hc2 : ¬ |x.y - y.y| > Y_TOLERANCE := by
      rw [hyy]
      simp
      linarith
    rw [cmpFrag, if_neg hc1] at hxy'
    rw [cmpFrag, if_neg hc2] at hyx'
    exact hxx (by linarith)
  · have hc1 : |y.y - x.y| > Y_TOLERANCE := by
      rw [abs_sub_comm]
      exact hgap
    have hc2 : |x.y - y.y| > Y_TOLERANCE := hgap
    rw [cmpFrag, if_pos hc1] at hxy'
    rw [cmpFrag, if_pos hc2] at hyx'
    have : |x.y - y.y| ≤ Y_TOLERANCE := by
      rcases abs_cases (x.y - y.y) with ⟨h1, _⟩ | ⟨h1, _⟩
      · rw [h1]; linarith
      · rw [h1]; linarith
    linarith

/-- C6 counterexample: two fragments tied under the comparator (same x,
same y, different text) keep their input order through the stable sort, so
the two orderings of the same two-fragment set produce different row
contents — `groupIntoRows` is not invariant under permutation of its
input. -/
theorem c6_counterexample :
    List.Perm [(⟨"P", 0, 0, 1⟩ : TextItem), ⟨"Q", 0, 0, 1⟩]
      [⟨"Q", 0, 0, 1⟩, ⟨"P", 0, 0, 1⟩] ∧
    groupIntoRows [⟨"P", 0, 0, 1⟩, ⟨"Q", 0, 0, 1⟩] ≠
      groupIntoRows [⟨"Q", 0, 0, 1⟩, ⟨"P", 0, 0, 1⟩] := by
  exact ⟨by decide, by decide⟩

/-- C6 (amended): `groupIntoRows` is a pure function of its input list
(no mutation), and permutation invariance holds on every fragment set where
the comparator is consistent: distinct fragments either share a y and
differ in x, or are separated by more than the tolerance.  On such sets
every permutation of the input yields the identical row sequence. -/
theorem c6_amended :
    ∀ l₁ l₂ : List TextItem, tieFreeConsistent l₁ → List.Perm l₁ l₂ →
      groupIntoRows l₁ = groupIntoRows l₂ := by
  intro l₁ l₂ hc hperm
  have htot : ∀ x ∈ l₁, ∀ y ∈ l₁, leFrag x y = true ∨ leFrag y x = true :=
    fun x _ y _ => leFrag_total x y
  have htrans := leFrag_trans_of_consistent l₁ hc
  have hsorteq : sortByStable leFrag l₁ = sortByStable leFrag l₂ := by
    refine sorted_perm_unique leFrag l₁ (leFrag_antisymm_of_consistent l₁ hc)
      (sortByStable leFrag l₁) (sortByStable leFrag l₂)
      (fun x hxm => (sortByStable_perm leFrag l₁).mem_iff.mp hxm)
      ?_ ?_ ?_
    · exact ((sortByStable_perm leFrag l₁).trans hperm).trans
        (sortByStable_perm leFrag l₂).symm
    · exact sortByStable_pairwise leFrag l₁ htot htrans l₁ (fun x hx => hx)
    · exact sortByStable_pairwise leFrag l₁ htot htrans l₂
        (fun x hx => hperm.symm.mem_iff.mp hx)
  unfold groupIntoRows
  rw [hsorteq]

/-- C6 witness: a concrete consistent two-fragment set and a permutation of
it grouped identically. -/
theorem c6_amended_witness :
    tieFreeConsistent [⟨"A", 0, 10, 1⟩, ⟨"B", 0, 0, 1⟩] ∧
    List.Perm [(⟨"A", 0, 10, 1⟩ : TextItem), ⟨"B", 0, 0, 1⟩]
      [⟨"B", 0, 0, 1⟩, ⟨"A", 0, 10, 1⟩] ∧
    groupIntoRows [⟨"A", 0, 10, 1⟩, ⟨"B", 0, 0, 1⟩] =
      groupIntoRows [⟨"B", 0, 0, 1⟩, ⟨"A", 0, 10, 1⟩] :=
  ⟨by unfold tieFreeConsistent; decide, by decide,
    c6_amended _ _ (by unfold tieFreeConsistent; decide) (by decide)⟩

/-! ## Row Grouper structure lemmas -/

/-- One step of the grouping scan. -/
theorem buildRows_cons (cur : List TextItem) (curY : ℚ) (it : TextItem)
    (rest : List TextItem) :
    buildRows cur curY (it :: rest) =
      if |it.y - curY| ≤ Y_TOLERANCE then buildRows (cur ++ [it]) curY rest
      else sortX cur :: buildRows [it] it.y rest := rfl

/-- The grouping scan on an exhausted stream emits the sorted current row. -/
theorem buildRows_nil (cur : List TextItem) (curY : ℚ) :
    buildRows cur curY [] = [sortX cur] := rfl

/-- The grouped rows flatten to a permutation of the current row plus the
pending fragments. -/
theorem buildRows_flatten_perm :
    ∀ (pend cur : List TextItem) (y0 : ℚ),
      List.Perm (List.flatten (buildRows cur y0 pend)) (cur ++ pend) := by
  intro pend
  induction pend with
  | nil =>
    intro cur y0
    rw [buildRows_nil, List.append_nil]
    simpa using sortByStable_perm leX cur
  | cons it rest ih =>
    intro cur y0
    rw [buildRows_cons]
    by_cases h : |it.y - y0| ≤ Y_TOLERANCE
    · rw [if_pos h]
      refine (ih (cur ++ [it]) y0).trans ?_
      rw [List.append_assoc]
      exact List.Perm.refl _
    · rw [if_neg h]
      rw [List.flatten_cons]
      exact ((sortByStable_perm leX cur).append (ih [it] it.y))

/-- Every row emitted by the scan is non-empty, as long as the current row
is. -/
theorem buildRows_ne_nil :
    ∀ (pend cur : List TextItem) (y0 : ℚ), cur ≠ [] →
      ∀ r ∈ buildRows cur y0 pend, r ≠ [] := by
  intro pend
  induction pend with
  | nil =>
    intro cur y0 hcur r hr
    rw [buildRows_nil, List.mem_singleton] at hr
    subst hr
    intro hnil
    have hp : List.Perm (sortX cur) cur := sortByStable_perm leX cur
    rw [hnil] at hp
    exact hcur hp.nil_eq.symm
  | cons it rest ih =>
    intro cur y0 hcur r hr
    rw [buildRows_cons] at hr
    by_cases h : |it.y - y0| ≤ Y_TOLERANCE
    · rw [if_pos h] at hr
      exact ih (cur ++ [it]) y0 (by simp) r hr
    · rw [if_neg h] at hr
      rcases List.mem_cons.mp hr with rfl | hr'
      · intro hnil
        have hp : List.Perm (sortX cur) cur := sortByStable_perm leX cur
        rw [hnil] at hp
        exact hcur hp.nil_eq.symm
      · exact ih [it] it.y (by simp) r hr'

/-- C10: `groupIntoRows` partitions its input: the concatenation of the
returned rows is a permutation of the input list (no fragment dropped,
duplicated or invented — each appears in exactly one row, with
multiplicity), and every returned row is non-empty. -/
theorem c10_partition :
    ∀ items : List TextItem,
      List.Perm (List.flatten (groupIntoRows items)) items ∧
      ∀ r ∈ groupIntoRows items, r ≠ [] := by
  intro items
  have hperm := sortByStable_perm leFrag items
  have hrows : groupIntoRows items =
      (match sortByStable leFrag items with
        | [] => []
        | a :: rest => buildRows [a] a.y rest) := rfl
  constructor
  · rw [hrows]
    cases hs : sortByStable leFrag items with
    | nil =>
      rw [hs] at hperm
      simpa using hperm
    | cons a rest =>
      rw [hs] at hperm
      exact (buildRows_flatten_perm rest [a] a.y).trans hperm
  · intro r hr
    rw [hrows] at hr
    cases hs : sortByStable leFrag items with
    | nil =>
      rw [hs] at hr
      exact absurd hr (List.not_mem_nil r)
    | cons a rest =>
      rw [hs] at hr
      exact buildRows_ne_nil rest [a] a.y (by simp) r hr

/-- C10 witness: a concrete one-fragment input flattens back to itself and
its single row is non-empty. -/
theorem c10_witness :
    List.Perm (List.flatten (groupIntoRows [⟨"A", 0, 0, 1⟩]))
      [(⟨"A", 0, 0, 1⟩ : TextItem)] ∧
    ([(⟨"A", 0, 0, 1⟩ : TextItem)] ∈ groupIntoRows [⟨"A", 0, 0, 1⟩]) ∧
    ([(⟨"A", 0, 0, 1⟩ : TextItem)] ≠ []) :=
  ⟨(c10_partition [⟨"A", 0, 0, 1⟩]).1, by decide,
    (c10_partition [⟨"A", 0, 0, 1⟩]).2 [⟨"A", 0, 0, 1⟩] (by decide)⟩

/-! ## Band structure lemmas for C7 -/

/-- The first element surviving `dropWhile` falsifies the predicate. -/
theorem dropWhile_head_false (p : α → Bool) :
    ∀ (l : List α) (v : α) (rest : List α), l.dropWhile p = v :: rest → p v = false := by
  intro l
  induction l with
  | nil => intro v rest h; simp [List.dropWhile] at h
  | cons c t ih =>
    intro v rest h
    rw [List.dropWhile_cons] at h
    by_cases hc : p c = true
    · rw [if_pos hc] at h
      exact ih v rest h
    · rw [if_neg hc] at h
      have hcv : c = v := ((List.cons.injEq _ _ _ _).mp h).1
      rw [← hcv]
      rwa [Bool.not_eq_true] at hc

/-- Fragments within tolerance of the current row's reference y are
absorbed into the current row by the scan. -/
theorem buildRows_chunk :
    ∀ (cls rest cur : List TextItem) (y0 : ℚ),
      (∀ u ∈ cls, |u.y - y0| ≤ Y_TOLERANCE) →
      buildRows cur y0 (cls ++ rest) = buildRows (cur ++ cls) y0 rest := by
  intro cls
  induction cls with
  | nil =>
    intro rest cur y0 _
    rw [List.nil_append, List.append_nil]
  | cons u cls' ih =>
    intro rest cur y0 hev
    rw [List.cons_append, buildRows_cons, if_pos (hev u (List.mem_cons_self u cls'))]
    rw [ih rest (cur ++ [u]) y0 (fun w hw => hev w (List.mem_cons_of_mem _ hw))]
    rw [List.append_assoc]
    rfl

/-- From `le` and a gap, y strictly drops by more than the tolerance. -/
theorem y_drop (u v : TextItem) (hle : leFrag u v = true)
    (hgap : |u.y - v.y| > Y_TOLERANCE) : v.y < u.y - Y_TOLERANCE := by
  have htol : (0 : ℚ) < Y_TOLERANCE := by norm_num [Y_TOLERANCE]
  have h' : cmpFrag u v ≤ 0 := of_decide_eq_true hle
  have hg : |v.y - u.y| > Y_TOLERANCE := by
    rw [abs_sub_comm]
    exact hgap
  rw [cmpFrag, if_pos hg] at h'
  rcases abs_cases (v.y - u.y) with ⟨h1, _⟩ | ⟨h1, _⟩ <;> linarith [hg]

/-- Within-tolerance transitivity implies transitivity of the row
comparator. -/
theorem leFrag_trans_of_eqvtrans (u : List TextItem)
    (het : ∀ a ∈ u, ∀ b ∈ u, ∀ c ∈ u,
      |a.y - b.y| ≤ Y_TOLERANCE → |b.y - c.y| ≤ Y_TOLERANCE →
      |a.y - c.y| ≤ Y_TOLERANCE) :
    ∀ x ∈ u, ∀ y ∈ u, ∀ z ∈ u,
      leFrag x y = true → leFrag y z = true → leFrag x z = true := by
  intro x hx y hy z hz hxy hyz
  have htol : (0 : ℚ) < Y_TOLERANCE := by norm_num [Y_TOLERANCE]
  have hxy' : cmpFrag x y ≤ 0 := of_decide_eq_true hxy
  have hyz' : cmpFrag y z ≤ 0 := of_decide_eq_true hyz
  refine decide_eq_true ?_
  by_cases g1 : |y.y - x.y| > Y_TOLERANCE <;> by_cases g2 : |z.y - y.y| > Y_TOLERANCE
  · -- both gaps
    rw [cmpFrag, if_pos g1] at hxy'
    rw [cmpFrag, if_pos g2] at hyz'
    have h1 : y.y - x.y < -Y_TOLERANCE := by
      rcases abs_cases (y.y - x.y) with ⟨ha, _⟩ | ⟨ha, _⟩ <;> linarith [g1]
    have h2 : z.y - y.y < -Y_TOLERANCE := by
      rcases abs_cases (z.y - y.y) with ⟨ha, _⟩ | ⟨ha, _⟩ <;> linarith [g2]
    have g3 : |z.y - x.y| > Y_TOLERANCE := by
      rcases abs_cases (z.y - x.y) with ⟨ha, _⟩ | ⟨ha, _⟩ <;> linarith
    rw [cmpFrag, if_pos g3]
    linarith
  · -- gap x-y, tolerance y-z
    rw [cmpFrag, if_pos g1] at hxy'
    have h1 : y.y - x.y < -Y_TOLERANCE := by
      rcases abs_cases (y.y - x.y) with ⟨ha, _⟩ | ⟨ha, _⟩ <;> linarith [g1]
    have e2 : |z.y - y.y| ≤ Y_TOLERANCE := not_lt.mp g2
    have g3 : |z.y - x.y| > Y_TOLERANCE := by
      by_contra hcon
      have e3 : |z.y - x.y| ≤ Y_TOLERANCE := not_lt.mp hcon
      have := het y hy z hz x hx (by rw [abs_sub_comm]; exact e2) e3
      exact absurd this (not_le.mpr g1)
    rw [cmpFrag, if_pos g3]
    have hz2 : z.y - y.y ≤ Y_TOLERANCE := le_trans (le_abs_self _) e2
    linarith
  · -- tolerance x-y, gap y-z
    have e1 : |y.y - x.y| ≤ Y_TOLERANCE := not_lt.mp g1
    rw [cmpFrag, if_pos g2] at hyz'
    have h2 : z.y - y.y < -Y_TOLERANCE := by
      rcases abs_cases (z.y - y.y) with ⟨ha, _⟩ | ⟨ha, _⟩ <;> linarith [g2]
    have g3 : |z.y - x.y| > Y_TOLERANCE := by
      by_contra hcon
      have e3 : |z.y - x.y| ≤ Y_TOLERANCE := not_lt.mp hcon
      have := het y hy x hx z hz e1 (by rw [abs_sub_comm]; exact e3)
      exact absurd (by rw [abs_sub_comm]; exact this : |z.y - y.y| ≤ Y_TOLERANCE)
        (not_le.mpr g2)
    rw [cmpFrag, if_pos g3]
    have hy2 : y.y - x.y ≤ Y_TOLERANCE := le_trans (le_abs_self _) e1
    linarith
  · -- both within tolerance
    have e1 : |y.y - x.y| ≤ Y_TOLERANCE := not_lt.mp g1
    have e2 : |z.y - y.y| ≤ Y_TOLERANCE := not_lt.mp g2
    rw [cmpFrag, if_neg g1] at hxy'
    rw [cmpFrag, if_neg g2] at hyz'
    have e3 : |z.y - x.y| ≤ Y_TOLERANCE := by
      have := het z hz y hy x hx e2 e1
      exact this
    rw [cmpFrag, if_neg (not_lt.mpr e3)]
    linarith

/-- Under the band hypotheses, being within tolerance is transitive on the
covered fragments: two within-tolerance fragments share a part. -/
theorem eqvtrans_of_bands (P : List (List TextItem))
    (hintra : ∀ p ∈ P, ∀ a ∈ p, ∀ b ∈ p, |a.y - b.y| ≤ Y_TOLERANCE)
    (hinter : List.Pairwise
      (fun p q => ∀ a ∈ p, ∀ b ∈ q, |a.y - b.y| > Y_TOLERANCE) P) :
    ∀ a ∈ P.flatten, ∀ b ∈ P.flatten, ∀ c ∈ P.flatten,
      |a.y - b.y| ≤ Y_TOLERANCE → |b.y - c.y| ≤ Y_TOLERANCE →
      |a.y - c.y| ≤ Y_TOLERANCE := by
  have hsym : Symmetric
      (fun p q : List TextItem => ∀ a ∈ p, ∀ b ∈ q, |a.y - b.y| > Y_TOLERANCE) := by
    intro p q h x hx y hy
    rw [abs_sub_comm]
    exact h y hy x hx
  have hbridge : ∀ a ∈ P.flatten, ∀ b ∈ P.flatten, |a.y - b.y| ≤ Y_TOLERANCE →
      ∃ q ∈ P, a ∈ q ∧ b ∈ q := by
    intro a ha b hb heqv
    obtain ⟨qa, hqa, haq⟩ := List.mem_flatten.mp ha
    obtain ⟨qb, hqb, hbq⟩ := List.mem_flatten.mp hb
    by_cases hq : qa = qb
    · exact ⟨qa, hqa, haq, hq ▸ hbq⟩
    · have := List.Pairwise.forall hsym hinter hqa hqb hq a haq b hbq
      exact absurd this (not_lt.mpr heqv)
  intro a ha b hb c hc h1 h2
  obtain ⟨q, hq, haq, hbq⟩ := hbridge a ha b hb h1
  obtain ⟨q', hq', hbq', hcq'⟩ := hbridge b hb c hc h2
  by_cases hqq : q = q'
  · exact hintra q hq a haq c (hqq ▸ hcq')
  · have := List.Pairwise.forall hsym hinter hq hq' hqq b hbq b hbq'
    rw [sub_self, abs_zero] at this
    norm_num [Y_TOLERANCE] at this

/-- The core band theorem for C7: scanning a sorted fragment list whose
elements form separated y-bands produces exactly one row per band, ordered
top to bottom. -/
theorem bands_grouped :
    ∀ (n : ℕ) (P : List (List TextItem)) (s : List TextItem),
      P.length = n →
      (∀ p ∈ P, p ≠ []) →
      (∀ p ∈ P, ∀ a ∈ p, ∀ b ∈ p, |a.y - b.y| ≤ Y_TOLERANCE) →
      List.Pairwise (fun p q => ∀ a ∈ p, ∀ b ∈ q, |a.y - b.y| > Y_TOLERANCE) P →
      List.Pairwise (fun u v => leFrag u v = true) s →
      List.Perm s P.flatten →
      (groupScan s).length = P.length ∧ List.Pairwise rowAbove (groupScan s) := by
  intro n
  induction n with
  | zero =>
    intro P s hlen hne hintra hinter hpw hperm
    have hP : P = [] := List.length_eq_zero.mp hlen
    subst hP
    have hs : s = [] := hperm.eq_nil
    subst hs
    exact ⟨rfl, List.Pairwise.nil⟩
  | succ n ih =>
    intro P s hlen hne hintra hinter hpw hperm
    cases s with
    | nil =>
      exfalso
      have hfl : P.flatten = [] := hperm.nil_eq.symm
      have hall := List.flatten_eq_nil_iff.mp hfl
      cases P with
      | nil => simp at hlen
      | cons p P' => exact hne p (List.mem_cons_self p P') (hall p (List.mem_cons_self p P'))
    | cons a s' =>
      have htol : (0 : ℚ) < Y_TOLERANCE := by norm_num [Y_TOLERANCE]
      have haP : a ∈ P.flatten := hperm.mem_iff.mp (List.mem_cons_self a s')
      obtain ⟨p, hpP, hap⟩ := List.mem_flatten.mp haP
      obtain ⟨P₁, P₂, hPd⟩ := List.append_of_mem hpP
      have hpairs := hinter
      rw [hPd] at hpairs
      obtain ⟨hpw1, hpw2, hcross⟩ := List.pairwise_append.mp hpairs
      obtain ⟨hpfirst, hpw2'⟩ := List.pairwise_cons.mp hpw2
      have hgapOther : ∀ q, (q ∈ P₁ ∨ q ∈ P₂) → ∀ u ∈ q, ∀ b ∈ p,
          |u.y - b.y| > Y_TOLERANCE := by
        intro q hq u hu b hb
        rcases hq with hq | hq
        · exact hcross q hq p (List.mem_cons_self p P₂) u hu b hb
        · rw [abs_sub_comm]
          exact hpfirst q hq b hb u hu
      have hpartof : ∀ u ∈ (a :: s'), u ∈ P.flatten := fun u hu => hperm.mem_iff.mp hu
      set pred := fun u : TextItem => decide (|u.y - a.y| ≤ Y_TOLERANCE) with hpred
      set B := (a :: s').takeWhile pred with hBdef
      set R := (a :: s').dropWhile pred with hRdef
      have hsplit : B ++ R = a :: s' := List.takeWhile_append_dropWhile pred (a :: s')
      have hBev : ∀ u ∈ B, |u.y - a.y| ≤ Y_TOLERANCE := by
        intro u hu
        rw [hBdef] at hu
        have h1 : pred u = true := List.mem_takeWhile_imp hu
        rw [hpred] at h1
        exact of_decide_eq_true h1
      have hpa : pred a = true := by
        rw [hpred]
        refine decide_eq_true ?_
        rw [sub_self, abs_zero]
        linarith
      have hB : B = a :: s'.takeWhile pred := by
        rw [hBdef]
        exact List.takeWhile_cons_of_pos hpa
      have hBp : ∀ u ∈ B, u ∈ p := by
        intro u hu
        have humem : u ∈ a :: s' := by
          rw [← hsplit]
          exact List.mem_append.mpr (Or.inl hu)
        obtain ⟨q, hqP, huq⟩ := List.mem_flatten.mp (hpartof u humem)
        have hq' : q ∈ P₁ ∨ q = p ∨ q ∈ P₂ := by
          have hqm : q ∈ P₁ ++ p :: P₂ := by
            rw [← hPd]
            exact hqP
          rcases List.mem_append.mp hqm with h | h
          · exact Or.inl h
          · rcases List.mem_cons.mp h with h | h
            · exact Or.inr (Or.inl h)
            · exact Or.inr (Or.inr h)
        rcases hq' with h | h | h
        · exact absurd (hBev u hu) (not_le.mpr (hgapOther q (Or.inl h) u huq a hap))
        · exact h ▸ huq
        · exact absurd (hBev u hu) (not_le.mpr (hgapOther q (Or.inr h) u huq a hap))
      have hpwBR : List.Pairwise (fun u v => leFrag u v = true) (B ++ R) := by
        rw [hsplit]
        exact hpw
      obtain ⟨hpwB, hpwR, hBRle⟩ := List.pairwise_append.mp hpwBR
      have hs'eq : s'.takeWhile pred ++ R = s' := by
        have h := hsplit
        rw [hB, List.cons_append] at h
        exact ((List.cons.injEq _ _ _ _).mp h).2
      have hRnp : ∀ u ∈ R, u ∉ p := by
        cases hRcase : R with
        | nil =>
          intro u hu
          exact absurd hu (List.not_mem_nil u)
        | cons v R' =>
          have hvfalse : pred v = false :=
            dropWhile_head_false pred (a :: s') v R' (hRdef.symm.trans hRcase)
          have hv : ¬ |v.y - a.y| ≤ Y_TOLERANCE := by
            intro hcon
            rw [hpred] at hvfalse
            exact (of_decide_eq_false hvfalse) hcon
          intro u hu hup
          have huev : |u.y - a.y| ≤ Y_TOLERANCE := hintra p hpP u hup a hap
          rcases List.mem_cons.mp hu with rfl | hu'
          · exact hv huev
          · have hpwR' : List.Pairwise (fun u v => leFrag u v = true) (v :: R') := by
              rw [← hRcase]
              exact hpwR
            have hle_vu : leFrag v u = true := (List.pairwise_cons.mp hpwR').1 u hu'
            have hvmem : v ∈ a :: s' := by
              rw [← hsplit, hRcase]
              exact List.mem_append.mpr (Or.inr (List.mem_cons_self v R'))
            obtain ⟨qv, hqvP, hvq⟩ := List.mem_flatten.mp (hpartof v hvmem)
            have hvnotp : v ∉ p := by
              intro hvp
              exact hv (hintra p hpP v hvp a hap)
            have hqv' : qv ∈ P₁ ∨ qv ∈ P₂ := by
              have hqm : qv ∈ P₁ ++ p :: P₂ := by
                rw [← hPd]
                exact hqvP
              rcases List.mem_append.mp hqm with h | h
              · exact Or.inl h
              · rcases List.mem_cons.mp h with h | h
                · exact absurd (h ▸ hvq) hvnotp
                · exact Or.inr h
            have hle_av : leFrag a v = true := by
              have hhead := (List.pairwise_cons.mp hpw).1
              have hv_s' : v ∈ s' := by
                rw [← hs'eq, hRcase]
                exact List.mem_append.mpr (Or.inr (List.mem_cons_self v R'))
              exact hhead v hv_s'
            have h1 : v.y < a.y - Y_TOLERANCE := by
              refine y_drop a v hle_av ?_
              rw [abs_sub_comm]
              exact hgapOther qv hqv' v hvq a hap
            have h2 : u.y < v.y - Y_TOLERANCE := by
              refine y_drop v u hle_vu ?_
              exact hgapOther qv hqv' v hvq u hup
            have habs : |u.y - a.y| > Y_TOLERANCE := by
              rcases abs_cases (u.y - a.y) with ⟨ha1, _⟩ | ⟨ha1, _⟩ <;> linarith
            exact absurd huev (not_le.mpr habs)
      have hcount_s : ∀ x : TextItem, (a :: s').count x =
          (P₁.flatten).count x + p.count x + (P₂.flatten).count x := by
        intro x
        have h1 : (a :: s').count x = (P.flatten).count x :=
          (List.perm_iff_count.mp hperm) x
        rw [h1, hPd, List.flatten_append, List.flatten_cons,
          List.count_append, List.count_append]
        omega
      have hzero1 : ∀ x ∈ p, (P₁.flatten).count x = 0 := by
        intro x hx
        refine List.count_eq_zero.mpr ?_
        intro hmem
        obtain ⟨q, hq, hxq⟩ := List.mem_flatten.mp hmem
        have hg := hgapOther q (Or.inl hq) x hxq x hx
        rw [sub_self, abs_zero] at hg
        linarith
      have hzero2 : ∀ x ∈ p, (P₂.flatten).count x = 0 := by
        intro x hx
        refine List.count_eq_zero.mpr ?_
        intro hmem
        obtain ⟨q, hq, hxq⟩ := List.mem_flatten.mp hmem
        have hg := hgapOther q (Or.inr hq) x hxq x hx
        rw [sub_self, abs_zero] at hg
        linarith
      have hBcount : ∀ x, B.count x = p.count x := by
        intro x
        by_cases hx : x ∈ p
        · have hRz : R.count x = 0 :=
            List.count_eq_zero.mpr (fun hmem => hRnp x hmem hx)
          have hcs := hcount_s x
          rw [← hsplit, List.count_append] at hcs
          rw [hzero1 x hx, hzero2 x hx] at hcs
          omega
        · have hBz : B.count x = 0 :=
            List.count_eq_zero.mpr (fun hmem => hx (hBp x hmem))
          have hpz : p.count x = 0 := List.count_eq_zero.mpr hx
          rw [hBz, hpz]
      have hBperm : List.Perm B p := List.perm_iff_count.mpr hBcount
      have hRperm : List.Perm R ((P₁ ++ P₂).flatten) := by
        refine List.perm_iff_count.mpr ?_
        intro x
        have hcs := hcount_s x
        rw [← hsplit, List.count_append] at hcs
        rw [List.flatten_append, List.count_append]
        by_cases hx : x ∈ p
        · have hRz : R.count x = 0 :=
            List.count_eq_zero.mpr (fun hmem => hRnp x hmem hx)
          rw [hzero1 x hx, hzero2 x hx] at hcs
          rw [hRz]
          have := hzero1 x hx
          have := hzero2 x hx
          omega
        · have hBz : B.count x = 0 :=
            List.count_eq_zero.mpr (fun hmem => hx (hBp x hmem))
          have hpz : p.count x = 0 := List.count_eq_zero.mpr hx
          rw [hBz, hpz] at hcs
          omega
      have htw : ∀ u ∈ s'.takeWhile pred, |u.y - a.y| ≤ Y_TOLERANCE := by
        intro u hu
        apply hBev
        rw [hB]
        exact List.mem_cons_of_mem _ hu
      have hgoalEq : groupScan (a :: s') = buildRows B a.y R := by
        show buildRows [a] a.y s' = buildRows B a.y R
        rw [← hs'eq, buildRows_chunk (s'.takeWhile pred) R [a] a.y htw, hB]
        rfl
      rw [hgoalEq]
      cases hRcase : R with
      | nil =>
        rw [buildRows_nil]
        have hflz : ((P₁ ++ P₂).flatten) = [] := by
          have hq := hRperm
          rw [hRcase] at hq
          exact hq.nil_eq.symm
        have hall := List.flatten_eq_nil_iff.mp hflz
        have hP1z : P₁ = [] := by
          cases hP1 : P₁ with
          | nil => rfl
          | cons q Q =>
            exfalso
            have hqP : q ∈ P := by
              rw [hPd, hP1]
              exact List.mem_append.mpr (Or.inl (List.mem_cons_self q Q))
            refine hne q hqP (hall q ?_)
            rw [hP1]
            exact List.mem_append.mpr (Or.inl (List.mem_cons_self q Q))
        have hP2z : P₂ = [] := by
          cases hP2 : P₂ with
          | nil => rfl
          | cons q Q =>
            exfalso
            have hqP : q ∈ P := by
              rw [hPd, hP2]
              exact List.mem_append.mpr (Or.inr (List.mem_cons_of_mem _ (List.mem_cons_self q Q)))
            refine hne q hqP (hall q ?_)
            rw [hP2]
            exact List.mem_append.mpr (Or.inr (List.mem_cons_self q Q))
        constructor
        · rw [hPd, hP1z, hP2z]
          rfl
        · exact List.pairwise_singleton _ _
      | cons v R' =>
        have hvfalse : pred v = false :=
          dropWhile_head_false pred (a :: s') v R' (hRdef.symm.trans hRcase)
        have hvny : ¬ |v.y - a.y| ≤ Y_TOLERANCE := by
          intro hcon
          rw [hpred] at hvfalse
          exact (of_decide_eq_false hvfalse) hcon
        rw [buildRows_cons, if_neg hvny]
        have hlen' : (P₁ ++ P₂).length = n := by
          have hPl : P.length = P₁.length + 1 + P₂.length := by
            rw [hPd, List.length_append, List.length_cons]
            omega
          rw [List.length_append]
          omega
        have hne' : ∀ q ∈ P₁ ++ P₂, q ≠ [] := by
          intro q hq
          apply hne
          rw [hPd]
          rcases List.mem_append.mp hq with h | h
          · exact List.mem_append.mpr (Or.inl h)
          · exact List.mem_append.mpr (Or.inr (List.mem_cons_of_mem _ h))
        have hintra' : ∀ q ∈ P₁ ++ P₂, ∀ x ∈ q, ∀ y ∈ q, |x.y - y.y| ≤ Y_TOLERANCE := by
          intro q hq
          apply hintra
          rw [hPd]
          rcases List.mem_append.mp hq with h | h
          · exact List.mem_append.mpr (Or.inl h)
          · exact List.mem_append.mpr (Or.inr (List.mem_cons_of_mem _ h))
        have hinter' : List.Pairwise
            (fun p q => ∀ a ∈ p, ∀ b ∈ q, |a.y - b.y| > Y_TOLERANCE) (P₁ ++ P₂) := by
          have hsub : List.Sublist (P₁ ++ P₂) P := by
            rw [hPd]
            exact List.Sublist.append_left (List.sublist_cons_self p P₂) P₁
          exact hinter.sublist hsub
        obtain ⟨ihlen, ihpair⟩ := ih (P₁ ++ P₂) R hlen' hne' hintra' hinter' hpwR hRperm
        have hgs : groupScan R = buildRows [v] v.y R' := by
          rw [hRcase]
          rfl
        rw [hgs] at ihlen ihpair
        constructor
        · rw [List.length_cons, ihlen, hPd, List.length_append, List.length_append,
            List.length_cons]
          omega
        · refine List.pairwise_cons.mpr ⟨?_, ihpair⟩
          intro r hr
          unfold rowAbove
          intro a' ha' b' hb'
          have hpB : List.Perm (sortX B) B := sortByStable_perm leX B
          have ha'B : a' ∈ B := hpB.mem_iff.mp ha'
          have ha'p : a' ∈ p := hBp a' ha'B
          have hb'R : b' ∈ R := by
            have hfl : List.Perm (List.flatten (buildRows [v] v.y R')) ([v] ++ R') :=
              buildRows_flatten_perm R' [v] v.y
            have hbmem : b' ∈ List.flatten (buildRows [v] v.y R') :=
              List.mem_flatten.mpr ⟨r, hr, hb'⟩
            rw [hRcase]
            exact hfl.mem_iff.mp hbmem
          obtain ⟨qb, hqb, hb'q⟩ := List.mem_flatten.mp (hRperm.mem_iff.mp hb'R)
          have hqb' : qb ∈ P₁ ∨ qb ∈ P₂ := List.mem_append.mp hqb
          have hle : leFrag a' b' = true := hBRle a' ha'B b' hb'R
          have hgap : |a'.y - b'.y| > Y_TOLERANCE := by
            rw [abs_sub_comm]
            exact hgapOther qb hqb' b' hb'q a' ha'p
          have hdrop := y_drop a' b' hle hgap
          linarith

/-- The left-to-right sort of a row is sorted by ascending x. -/
theorem sortX_pairwise (l : List TextItem) :
    List.Pairwise (fun a b : TextItem => a.x ≤ b.x) (sortX l) := by
  have htot : ∀ x ∈ l, ∀ y ∈ l, leX x y = true ∨ leX y x = true := by
    intro x _ y _
    unfold leX
    rcases le_total x.x y.x with h | h
    · exact Or.inl (decide_eq_true h)
    · exact Or.inr (decide_eq_true h)
  have htrans : ∀ x ∈ l, ∀ y ∈ l, ∀ z ∈ l,
      leX x y = true → leX y z = true → leX x z = true := by
    intro x _ y _ z _ hxy hyz
    exact decide_eq_true (le_trans (of_decide_eq_true hxy) (of_decide_eq_true hyz))
  have h := sortByStable_pairwise leX l htot htrans l (fun x hx => hx)
  exact h.imp (fun hab => of_decide_eq_true hab)

/-- Every row the scan emits is sorted by ascending x. -/
theorem buildRows_xsorted :
    ∀ (pend cur : List TextItem) (y0 : ℚ), ∀ r ∈ buildRows cur y0 pend,
      List.Pairwise (fun a b : TextItem => a.x ≤ b.x) r := by
  intro pend
  induction pend with
  | nil =>
    intro cur y0 r hr
    rw [buildRows_nil, List.mem_singleton] at hr
    subst hr
    exact sortX_pairwise cur
  | cons it rest ih =>
    intro cur y0 r hr
    rw [buildRows_cons] at hr
    by_cases h : |it.y - y0| ≤ Y_TOLERANCE
    · rw [if_pos h] at hr
      exact ih (cur ++ [it]) y0 r hr
    · rw [if_neg h] at hr
      rcases List.mem_cons.mp hr with rfl | hr'
      · exact sortX_pairwise cur
      · exact ih [it] it.y r hr'

/-- C7: on a fragment set forming bands — pairwise y-gaps within each band
at most the tolerance, pairwise gaps across bands exceeding it — the
grouper produces exactly one row per band, each row sorted by ascending x,
and the rows ordered top to bottom (strictly descending y). -/
theorem c7_band_grouping :
    ∀ (P : List (List TextItem)) (items : List TextItem),
      (∀ p ∈ P, p ≠ []) →
      List.Perm items P.flatten →
      (∀ p ∈ P, ∀ a ∈ p, ∀ b ∈ p, |a.y - b.y| ≤ Y_TOLERANCE) →
      List.Pairwise (fun p q => ∀ a ∈ p, ∀ b ∈ q, |a.y - b.y| > Y_TOLERANCE) P →
      (groupIntoRows items).length = P.length ∧
      (∀ r ∈ groupIntoRows items,
        List.Pairwise (fun a b : TextItem => a.x ≤ b.x) r) ∧
      List.Pairwise rowAbove (groupIntoRows items) := by
  intro P items hne hperm hintra hinter
  have hsperm : List.Perm (sortByStable leFrag items) P.flatten :=
    (sortByStable_perm leFrag items).trans hperm
  have het := eqvtrans_of_bands P hintra hinter
  have hmemP : ∀ x ∈ items, x ∈ P.flatten := fun x hx => hperm.mem_iff.mp hx
  have htrans : ∀ x ∈ items, ∀ y ∈ items, ∀ z ∈ items,
      leFrag x y = true → leFrag y z = true → leFrag x z = true := by
    intro x hx y hy z hz
    exact leFrag_trans_of_eqvtrans P.flatten het x (hmemP x hx)
      y (hmemP y hy) z (hmemP z hz)
  have hpw := sortByStable_pairwise leFrag items
    (fun x _ y _ => leFrag_total x y) htrans items (fun x hx => hx)
  obtain ⟨hlen, hpair⟩ := bands_grouped P.length P (sortByStable leFrag items)
    rfl hne hintra hinter hpw hsperm
  have hgi : groupIntoRows items = groupScan (sortByStable leFrag items) := rfl
  refine ⟨by rw [hgi]; exact hlen, ?_, by rw [hgi]; exact hpair⟩
  intro r hr
  rw [hgi] at hr
  cases hs : sortByStable leFrag items with
  | nil =>
    rw [hs] at hr
    exact absurd hr (List.not_mem_nil r)
  | cons a rest =>
    rw [hs] at hr
    exact buildRows_xsorted rest [a] a.y r hr

/-- C7 witness: two singleton bands separated by 10 points group into
exactly two rows. -/
theorem c7_witness :
    List.Perm [(⟨"B", 0, 0, 1⟩ : TextItem), ⟨"A", 0, 10, 1⟩]
      ([[(⟨"A", 0, 10, 1⟩ : TextItem)], [⟨"B", 0, 0, 1⟩]]).flatten ∧
    (groupIntoRows [⟨"B", 0, 0, 1⟩, ⟨"A", 0, 10, 1⟩]).length = 2 :=
  ⟨by decide,
    (c7_band_grouping [[⟨"A", 0, 10, 1⟩], [⟨"B", 0, 0, 1⟩]]
      [⟨"B", 0, 0, 1⟩, ⟨"A", 0, 10, 1⟩]
      (by decide) (by decide) (by decide) (by decide)).1⟩
